import Mathlib

/-!
# Verification of the seccomp-bpf filter compiler core

This development models the syscall-filter compiler core of the repository:
the value-matcher / rule algebra, the rule-to-bytecode compiler, the
optimizer, the bytecode interpreter, the precompiled-program codec and the
precompiled-program registry.  The registry (`GetPrecompiled`,
`ListPrecompiled`, `registerPrograms`) is embedded from the repository
source; the compiler core itself is not part of the available sources, so it
is modelled from the specification document, faithful to its data model and
algorithm descriptions.
-/

namespace SeccompCore

/-- Verdict: the terminal action associated with a matching rule.
Modelled from the spec: `Allow`, `ErrnoReturn(code)`, `Trap`, `KillProcess`,
`KillThread`. -/
inductive Verdict where
  | allow : Verdict
  | errnoReturn (code : Nat) : Verdict
  | trap : Verdict
  | killProcess : Verdict
  | killThread : Verdict
deriving DecidableEq, Repr

/-- The operand of a load instruction.  Modelled from the spec: the machine
is 32-bit-word-oriented, and the input tuple `(architecture, syscall number,
six 64-bit arguments)` is accessed wordwise, each 64-bit argument as a
low/high pair of 32-bit halves. -/
inductive LoadField where
  | nr : LoadField
  | arch : LoadField
  | argLow (i : Nat) : LoadField
  | argHigh (i : Nat) : LoadField
deriving DecidableEq, Repr

/-- Instruction: `{opcode, jump-true-offset, jump-false-offset, immediate}`.
Modelled from the spec: a flat array of such records, forward-only relative
jumps, a single 32-bit accumulator.  Conditional jumps skip `jt` (resp.
`jf`) instructions past the next instruction; `ja` skips `k` instructions;
`ret` terminates with a verdict. -/
inductive Instr where
  | ld (f : LoadField) : Instr
  | aluAnd (k : Nat) : Instr
  | jeq (k jt jf : Nat) : Instr
  | jgt (k jt jf : Nat) : Instr
  | jge (k jt jf : Nat) : Instr
  | jset (k jt jf : Nat) : Instr
  | ja (k : Nat) : Instr
  | ret (v : Verdict) : Instr
deriving DecidableEq, Repr

/-- The abstract input tuple: architecture tag, syscall number, and the six
64-bit argument values. -/
structure Input where
  arch : Nat
  nr : Nat
  args : List Nat
deriving DecidableEq, Repr

/-- An input is valid when the architecture tag and syscall number are
32-bit quantities and there are exactly six 64-bit argument values. -/
def Input.valid (inp : Input) : Bool :=
  inp.arch < 2 ^ 32 && inp.nr < 2 ^ 32 && inp.args.length == 6 &&
    inp.args.all (fun a => a < 2 ^ 64)

/-- Wordwise access to the input, as performed by a load instruction. -/
def loadField (inp : Input) : LoadField → Nat
  | .nr => inp.nr
  | .arch => inp.arch
  | .argLow i => (inp.args.getD i 0) &&& 0xFFFFFFFF
  | .argHigh i => (inp.args.getD i 0) >>> 32

/-- A complete program: instruction array plus the architecture tag it was
compiled for and the default verdict it was built with. -/
structure Program where
  arch : Nat
  instructions : List Instr
  defaultAction : Verdict
deriving DecidableEq, Repr

/-- The hard ceiling on program length imposed by the target execution
engine. -/
def MaxInstructions : Nat := 4096

/-!
## The bytecode interpreter

`runV` is the workhorse semantics: it executes a suffix of the instruction
array.  Because all jumps are forward-only relative jumps, "jump by `k`"
is `List.drop k` on the remaining instructions, and execution structurally
terminates.  `runFuel` is the fetch-decode-execute loop with an explicit
instruction pointer described by the spec; the two agree whenever the fuel
covers the remaining program length.  `runN` additionally counts executed
instructions, and `runCov` records the set of executed instruction
indices (the coverage accounting of the equivalence oracle).
-/

/-- Execute a (suffix of a) program: result verdict, or `none` if execution
falls outside the program (a construction bug). -/
def runV : List Instr → Input → Nat → Option Verdict
  | [], _, _ => none
  | ins :: rest, inp, a =>
    match ins with
    | .ret v => some v
    | .ld f => runV rest inp (loadField inp f)
    | .aluAnd k => runV rest inp (a &&& k)
    | .ja k => runV (rest.drop k) inp a
    | .jeq k jt jf => runV (rest.drop (if a == k then jt else jf)) inp a
    | .jgt k jt jf => runV (rest.drop (if k < a then jt else jf)) inp a
    | .jge k jt jf => runV (rest.drop (if k ≤ a then jt else jf)) inp a
    | .jset k jt jf => runV (rest.drop (if a &&& k != 0 then jt else jf)) inp a
termination_by code => code.length
decreasing_by all_goals (simp [List.length_drop]; try omega)

/-- Execute a (suffix of a) program, counting executed instructions. -/
def runN : List Instr → Input → Nat → Option (Verdict × Nat)
  | [], _, _ => none
  | ins :: rest, inp, a =>
    match ins with
    | .ret v => some (v, 1)
    | .ld f => (runN rest inp (loadField inp f)).map (fun p => (p.1, p.2 + 1))
    | .aluAnd k => (runN rest inp (a &&& k)).map (fun p => (p.1, p.2 + 1))
    | .ja k => (runN (rest.drop k) inp a).map (fun p => (p.1, p.2 + 1))
    | .jeq k jt jf =>
        (runN (rest.drop (if a == k then jt else jf)) inp a).map
          (fun p => (p.1, p.2 + 1))
    | .jgt k jt jf =>
        (runN (rest.drop (if k < a then jt else jf)) inp a).map
          (fun p => (p.1, p.2 + 1))
    | .jge k jt jf =>
        (runN (rest.drop (if k ≤ a then jt else jf)) inp a).map
          (fun p => (p.1, p.2 + 1))
    | .jset k jt jf =>
        (runN (rest.drop (if a &&& k != 0 then jt else jf)) inp a).map
          (fun p => (p.1, p.2 + 1))
termination_by code => code.length
decreasing_by all_goals (simp [List.length_drop]; try omega)

/-- The fetch-decode-execute loop of the spec: an explicit instruction
pointer into the flat array, a 32-bit accumulator, and fuel bounding the
number of steps. -/
def runFuel (code : List Instr) (inp : Input) : Nat → Nat → Nat → Option Verdict
  | 0, _, _ => none
  | fuel + 1, pc, a =>
    match code[pc]? with
    | none => none
    | some (.ret v) => some v
    | some (.ld f) => runFuel code inp fuel (pc + 1) (loadField inp f)
    | some (.aluAnd k) => runFuel code inp fuel (pc + 1) (a &&& k)
    | some (.ja k) => runFuel code inp fuel (pc + 1 + k) a
    | some (.jeq k jt jf) =>
        runFuel code inp fuel (pc + 1 + (if a == k then jt else jf)) a
    | some (.jgt k jt jf) =>
        runFuel code inp fuel (pc + 1 + (if k < a then jt else jf)) a
    | some (.jge k jt jf) =>
        runFuel code inp fuel (pc + 1 + (if k ≤ a then jt else jf)) a
    | some (.jset k jt jf) =>
        runFuel code inp fuel (pc + 1 + (if a &&& k != 0 then jt else jf)) a

/-- Execute a program on an input with the fetch-decode-execute
interpreter; fuel `len(Program)` always suffices because jumps are
forward-only. -/
def execute (p : Program) (inp : Input) : Option Verdict :=
  runFuel p.instructions inp p.instructions.length 0 0

/-- The fetch-decode-execute interpreter agrees with the suffix-based
semantics as soon as the fuel covers the remaining program length. -/
theorem runFuel_eq_runV (code : List Instr) (inp : Input) :
    ∀ fuel pc a, code.length - pc ≤ fuel →
      runFuel code inp fuel pc a = runV (code.drop pc) inp a := by
  intro fuel
  induction fuel with
  | zero =>
    intro pc a h
    have hlen : code.length ≤ pc := by omega
    simp [runFuel, List.getElem?_eq_none hlen, List.drop_eq_nil_of_le hlen, runV]
  | succ n ih =>
    intro pc a h
    rcases hpc : code[pc]? with _ | ins
    · have hlen : code.length ≤ pc := by
        by_contra hlt
        rw [List.getElem?_eq_getElem (by omega)] at hpc
        exact Option.noConfusion hpc
      simp [runFuel, hpc, List.drop_eq_nil_of_le hlen, runV]
    · have hlt : pc < code.length := by
        by_contra hge
        rw [List.getElem?_eq_none (by omega)] at hpc
        exact Option.noConfusion hpc
      have hdrop : code.drop pc = code[pc] :: code.drop (pc + 1) :=
        List.drop_eq_getElem_cons hlt
      have hins : code[pc] = ins := by
        rw [List.getElem?_eq_getElem hlt] at hpc
        exact Option.some.injEq _ _ ▸ hpc.symm ▸ rfl
      rw [hdrop, hins]
      cases ins with
      | ret v => simp [runFuel, hpc, runV]
      | ld f =>
        rw [runFuel]
        simp only [hpc]
        rw [ih (pc + 1) _ (by omega)]
        simp [runV]
      | aluAnd k =>
        rw [runFuel]
        simp only [hpc]
        rw [ih (pc + 1) _ (by omega)]
        simp [runV]
      | ja k =>
        rw [runFuel]
        simp only [hpc]
        rw [ih (pc + 1 + k) _ (by omega)]
        simp [runV, List.drop_drop]
      | jeq k jt jf =>
        rw [runFuel]
        simp only [hpc]
        rw [ih (pc + 1 + (if a == k then jt else jf)) _ (by omega)]
        simp [runV, List.drop_drop]
      | jgt k jt jf =>
        rw [runFuel]
        simp only [hpc]
        rw [ih (pc + 1 + (if k < a then jt else jf)) _ (by omega)]
        simp [runV, List.drop_drop]
      | jge k jt jf =>
        rw [runFuel]
        simp only [hpc]
        rw [ih (pc + 1 + (if k ≤ a then jt else jf)) _ (by omega)]
        simp [runV, List.drop_drop]
      | jset k jt jf =>
        rw [runFuel]
        simp only [hpc]
        rw [ih (pc + 1 + (if a &&& k != 0 then jt else jf)) _ (by omega)]
        simp [runV, List.drop_drop]

/-- `execute` computes the suffix semantics from the start of the
program. -/
theorem execute_eq_runV (p : Program) (inp : Input) :
    execute p inp = runV p.instructions inp 0 := by
  have h := runFuel_eq_runV p.instructions inp p.instructions.length 0 0
    (by omega)
  simpa [execute] using h


/-!
## Value matcher and rule algebra

Modelled from the spec: `ValueMatcher` is a variant over `AnyValue`,
`EqualTo`, `NotEqualTo`, `GreaterThan`, `LessThan`, `MaskedEqual`,
`BitsAllowlist`, `BitsDenylist`; each is a pure predicate over one 64-bit
value, with unsigned comparisons.  `SyscallRule` is a variant over
`MatchAll`, `PerArg`, `Or`, `And`; `PerArg` matches iff every slot matcher
matches the corresponding argument; an empty `Or` is false, an empty `And`
is true.
-/

/-- A predicate over one 64-bit argument value. -/
inductive ValueMatcher where
  | anyValue : ValueMatcher
  | equalTo (v : Nat) : ValueMatcher
  | notEqualTo (v : Nat) : ValueMatcher
  | greaterThan (v : Nat) : ValueMatcher
  | lessThan (v : Nat) : ValueMatcher
  | maskedEqual (mask v : Nat) : ValueMatcher
  | bitsAllowlist (mask : Nat) : ValueMatcher
  | bitsDenylist (mask : Nat) : ValueMatcher
deriving DecidableEq, Repr

/-- Complement of a mask within the 64-bit value domain. -/
def compl64 (m : Nat) : Nat := m ^^^ (2 ^ 64 - 1)

/-- `matches matcher value`: the total, side-effect-free matcher predicate.
Modelled from the spec: `MaskedEqual(mask, v)` holds iff
`(value & mask) == (v & mask)`; `GreaterThan`/`LessThan` are unsigned
comparisons; `BitsAllowlist(mask)` permits only bits of `mask` to be set;
`BitsDenylist(mask)` forbids every bit of `mask`. -/
def ValueMatcher.matchesValue : ValueMatcher → Nat → Bool
  | .anyValue, _ => true
  | .equalTo v, x => x == v
  | .notEqualTo v, x => x != v
  | .greaterThan v, x => v < x
  | .lessThan v, x => x < v
  | .maskedEqual mask v, x => (x &&& mask) == (v &&& mask)
  | .bitsAllowlist mask, x => x &&& compl64 mask == 0
  | .bitsDenylist mask, x => x &&& mask == 0

/-- A predicate over an entire syscall invocation. -/
inductive SyscallRule where
  | matchAll : SyscallRule
  | perArg (ms : List ValueMatcher) : SyscallRule
  | or (rs : List SyscallRule) : SyscallRule
  | and (rs : List SyscallRule) : SyscallRule

/-- `PerArg` evaluation from argument slot `i` upward: every listed matcher
must match its slot. -/
def perArgMatchesFrom (args : List Nat) : List ValueMatcher → Nat → Bool
  | [], _ => true
  | m :: ms, i => m.matchesValue (args.getD i 0) && perArgMatchesFrom args ms (i + 1)

mutual

/-- Rule evaluation over the six argument values.  `Or`/`And` are standard
Boolean composition (short-circuiting); an empty `Or` is false, an empty
`And` is true. -/
def ruleMatches : SyscallRule → List Nat → Bool
  | .matchAll, _ => true
  | .perArg ms, args => perArgMatchesFrom args ms 0
  | .or rs, args => anyRuleMatches rs args
  | .and rs, args => allRuleMatches rs args
termination_by r => sizeOf r

/-- Disjunction over a list of sub-rules. -/
def anyRuleMatches : List SyscallRule → List Nat → Bool
  | [], _ => false
  | r :: rs, args => ruleMatches r args || anyRuleMatches rs args
termination_by rs => sizeOf rs

/-- Conjunction over a list of sub-rules. -/
def allRuleMatches : List SyscallRule → List Nat → Bool
  | [], _ => true
  | r :: rs, args => ruleMatches r args && allRuleMatches rs args
termination_by rs => sizeOf rs

end

/-- A matcher is well-formed when its constants are 64-bit quantities. -/
def ValueMatcher.wf : ValueMatcher → Bool
  | .anyValue => true
  | .equalTo v => v < 2 ^ 64
  | .notEqualTo v => v < 2 ^ 64
  | .greaterThan v => v < 2 ^ 64
  | .lessThan v => v < 2 ^ 64
  | .maskedEqual mask v => mask < 2 ^ 64 && v < 2 ^ 64
  | .bitsAllowlist mask => mask < 2 ^ 64
  | .bitsDenylist mask => mask < 2 ^ 64

mutual

/-- A rule is well-formed when every matcher constant in it is a 64-bit
quantity. -/
def SyscallRule.wf : SyscallRule → Bool
  | .matchAll => true
  | .perArg ms => ms.all ValueMatcher.wf
  | .or rs => allRulesWf rs
  | .and rs => allRulesWf rs
termination_by r => sizeOf r

/-- Well-formedness of a list of sub-rules. -/
def allRulesWf : List SyscallRule → Bool
  | [] => true
  | r :: rs => r.wf && allRulesWf rs
termination_by rs => sizeOf rs

end

/-- A custom induction principle for `SyscallRule` that hands the inductive
hypothesis to every member of an `Or`/`And` child list. -/
theorem SyscallRule.inductionOn {P : SyscallRule → Prop}
    (hMatchAll : P .matchAll)
    (hPerArg : ∀ ms, P (.perArg ms))
    (hOr : ∀ rs, (∀ r ∈ rs, P r) → P (.or rs))
    (hAnd : ∀ rs, (∀ r ∈ rs, P r) → P (.and rs)) :
    ∀ r, P r := fun r =>
  match r with
  | .matchAll => hMatchAll
  | .perArg ms => hPerArg ms
  | .or rs =>
      hOr rs (fun r _ =>
        SyscallRule.inductionOn hMatchAll hPerArg hOr hAnd r)
  | .and rs =>
      hAnd rs (fun r _ =>
        SyscallRule.inductionOn hMatchAll hPerArg hOr hAnd r)
termination_by r => sizeOf r
decreasing_by
  all_goals
    (rename_i hmem; have := List.sizeOf_lt_of_mem hmem; simp; omega)

/-!
## 32-bit halves

The bytecode machine operates on 32-bit words; compiled comparisons against
64-bit values are widenings of a 32-bit compare-pair over the low/high
halves of each value.
-/

/-- Low 32-bit half of a 64-bit value. -/
def lo32 (x : Nat) : Nat := x &&& 0xFFFFFFFF

/-- High 32-bit half of a 64-bit value. -/
def hi32 (x : Nat) : Nat := x >>> 32

theorem lo32_eq_mod (x : Nat) : lo32 x = x % 2 ^ 32 := by
  have h : (0xFFFFFFFF : Nat) = 2 ^ 32 - 1 := by norm_num
  rw [lo32, h, Nat.and_pow_two_sub_one_eq_mod]

theorem hi32_eq_div (x : Nat) : hi32 x = x / 2 ^ 32 := by
  rw [hi32, Nat.shiftRight_eq_div_pow]

theorem lo32_lt (x : Nat) : lo32 x < 2 ^ 32 := by
  rw [lo32_eq_mod]; exact Nat.mod_lt _ (by norm_num)

theorem hi32_lt {x : Nat} (h : x < 2 ^ 64) : hi32 x < 2 ^ 32 := by
  rw [hi32_eq_div]; omega

/-- A value is determined by its two halves. -/
theorem eq_iff_halves {x y : Nat} :
    x = y ↔ (hi32 x = hi32 y ∧ lo32 x = lo32 y) := by
  rw [hi32_eq_div, hi32_eq_div, lo32_eq_mod, lo32_eq_mod]
  omega

/-- Unsigned comparison decomposes over the two halves. -/
theorem lt_iff_halves {x y : Nat} :
    x < y ↔ (hi32 x < hi32 y ∨ (hi32 x = hi32 y ∧ lo32 x < lo32 y)) := by
  rw [hi32_eq_div, hi32_eq_div, lo32_eq_mod, lo32_eq_mod]
  omega

theorem hi32_and (x m : Nat) : hi32 (x &&& m) = hi32 x &&& hi32 m := by
  apply Nat.eq_of_testBit_eq
  intro i
  simp [hi32, Nat.testBit_shiftRight, Nat.testBit_and]

theorem lo32_and (x m : Nat) : lo32 (x &&& m) = lo32 x &&& lo32 m := by
  apply Nat.eq_of_testBit_eq
  intro i
  simp only [lo32_eq_mod, Nat.testBit_mod_two_pow, Nat.testBit_and]
  cases hi : decide (i < 32) <;> simp

theorem lo32_zero : lo32 0 = 0 := by simp [lo32]

theorem hi32_zero : hi32 0 = 0 := by simp [hi32]

/-- A 64-bit masked comparison decomposes into the pair of 32-bit masked
comparisons over the halves. -/
theorem masked_eq_iff_halves {x v m : Nat} :
    (x &&& m) = (v &&& m) ↔
      ((hi32 x &&& hi32 m) = (hi32 v &&& hi32 m) ∧
        (lo32 x &&& lo32 m) = (lo32 v &&& lo32 m)) := by
  rw [eq_iff_halves, hi32_and, hi32_and, lo32_and, lo32_and]

/-- A 64-bit zero-test of a masked value decomposes over the halves. -/
theorem masked_zero_iff_halves {x m : Nat} :
    (x &&& m) = 0 ↔
      ((hi32 x &&& hi32 m) = 0 ∧ (lo32 x &&& lo32 m) = 0) := by
  have h := masked_eq_iff_halves (v := 0) (x := x) (m := m)
  simpa [hi32_zero, lo32_zero] using h

/-!
## The program compiler

Modelled from the spec: each entry's block begins with an equality test on
the syscall number; the rule tree is lowered into a chain of argument-load +
comparison + conditional-jump instructions preserving the Or/And
short-circuit structure; blocks are chained so a non-match falls through to
the next entry and the final fallthrough yields the default verdict; each
argument is accessed as two 32-bit loads (low/high half).

All compilation functions below produce code with a two-exit contract:
executing the block followed by a continuation `K` continues at
`K.drop mT` when the condition holds and at `K.drop fT` otherwise.
-/

/-- Lower a single value matcher for argument slot `i` with exits
`(mT, fT)` counted in instructions past the end of the emitted block. -/
def compileMatcher : ValueMatcher → Nat → Nat → Nat → List Instr
  | .anyValue, _, mT, _ => [.ja mT]
  | .equalTo v, i, mT, fT =>
      [.ld (.argHigh i), .jeq (hi32 v) 0 (2 + fT),
       .ld (.argLow i), .jeq (lo32 v) mT fT]
  | .notEqualTo v, i, mT, fT =>
      [.ld (.argHigh i), .jeq (hi32 v) 0 (2 + mT),
       .ld (.argLow i), .jeq (lo32 v) fT mT]
  | .greaterThan v, i, mT, fT =>
      [.ld (.argHigh i), .jgt (hi32 v) (3 + mT) 0, .jeq (hi32 v) 0 (2 + fT),
       .ld (.argLow i), .jgt (lo32 v) mT fT]
  | .lessThan v, i, mT, fT =>
      [.ld (.argHigh i), .jgt (hi32 v) (3 + fT) 0, .jeq (hi32 v) 0 (2 + mT),
       .ld (.argLow i), .jge (lo32 v) fT mT]
  | .maskedEqual mask v, i, mT, fT =>
      [.ld (.argHigh i), .aluAnd (hi32 mask),
       .jeq (hi32 v &&& hi32 mask) 0 (3 + fT),
       .ld (.argLow i), .aluAnd (lo32 mask),
       .jeq (lo32 v &&& lo32 mask) mT fT]
  | .bitsAllowlist mask, i, mT, fT =>
      [.ld (.argHigh i), .jset (hi32 (compl64 mask)) (2 + fT) 0,
       .ld (.argLow i), .jset (lo32 (compl64 mask)) fT mT]
  | .bitsDenylist mask, i, mT, fT =>
      [.ld (.argHigh i), .jset (hi32 mask) (2 + fT) 0,
       .ld (.argLow i), .jset (lo32 mask) fT mT]

/-- Lower a `PerArg` matcher vector starting at argument slot `i`:
conjunction of the slot matchers, short-circuiting to `fT` on the first
failing slot. -/
def compilePerArg : List ValueMatcher → Nat → Nat → Nat → List Instr
  | [], _, mT, _ => [.ja mT]
  | m :: ms, i, mT, fT =>
      let c2 := compilePerArg ms (i + 1) mT fT
      compileMatcher m i 0 (c2.length + fT) ++ c2

mutual

/-- Lower a syscall rule tree with exits `(mT, fT)`. -/
def compileRule : SyscallRule → Nat → Nat → List Instr
  | .matchAll, mT, _ => [.ja mT]
  | .perArg ms, mT, fT => compilePerArg ms 0 mT fT
  | .or rs, mT, fT => compileOrList rs mT fT
  | .and rs, mT, fT => compileAndList rs mT fT
termination_by r => sizeOf r

/-- Lower a disjunction: the first matching branch short-circuits to `mT`;
an empty disjunction never matches. -/
def compileOrList : List SyscallRule → Nat → Nat → List Instr
  | [], _, fT => [.ja fT]
  | r :: rs, mT, fT =>
      let c2 := compileOrList rs mT fT
      compileRule r (c2.length + mT) 0 ++ c2
termination_by rs => sizeOf rs

/-- Lower a conjunction: the first failing branch short-circuits to `fT`;
an empty conjunction always matches. -/
def compileAndList : List SyscallRule → Nat → Nat → List Instr
  | [], mT, _ => [.ja mT]
  | r :: rs, mT, fT =>
      let c2 := compileAndList rs mT fT
      compileRule r 0 (c2.length + fT) ++ c2
termination_by rs => sizeOf rs

end

/-- One `(syscall number, SyscallRule, Verdict)` entry of the ordered rule
list handed to the compiler. -/
structure Entry where
  sysno : Nat
  rule : SyscallRule
  action : Verdict

/-- Chain the per-entry blocks: each block dispatches on the syscall
number, lowers its rule so a match yields the entry's verdict and a
non-match falls through to the next block, and the final fallthrough
yields the default verdict. -/
def compileEntries : List Entry → Verdict → List Instr
  | [], d => [.ret d]
  | e :: es, d =>
      let rest := compileEntries es d
      let cr := compileRule e.rule 0 1
      .ld .nr :: .jeq e.sysno 0 (cr.length + 1) :: (cr ++ (.ret e.action :: rest))

/-- Compilation failure modes. -/
inductive CompileError where
  | budgetExceeded : CompileError
deriving DecidableEq, Repr

/-- Compile an ordered entry list plus default verdict into a program, or
fail with a budget-exceeded error when the lowered instruction count
exceeds `MaxInstructions`. -/
def compile (entries : List Entry) (d : Verdict) (arch : Nat) :
    Except CompileError Program :=
  let code := compileEntries entries d
  if code.length ≤ MaxInstructions then .ok ⟨arch, code, d⟩
  else .error .budgetExceeded

/-- Modelled from the spec: the compiler's correctness contract — the
verdict of the first matching entry in list order, or the default if none
match. -/
def firstMatchVerdict : List Entry → Verdict → Input → Verdict
  | [], d, _ => d
  | e :: es, d, inp =>
      if inp.nr == e.sysno && ruleMatches e.rule inp.args then e.action
      else firstMatchVerdict es d inp

/-!
## Interpreter unfolding lemmas
-/

@[simp] theorem runV_nil (inp : Input) (a : Nat) : runV [] inp a = none := by
  simp [runV]

@[simp] theorem runV_ret (v : Verdict) (rest : List Instr) (inp : Input)
    (a : Nat) : runV (.ret v :: rest) inp a = some v := by
  simp [runV]

@[simp] theorem runV_ld (f : LoadField) (rest : List Instr) (inp : Input)
    (a : Nat) : runV (.ld f :: rest) inp a = runV rest inp (loadField inp f) := by
  simp [runV]

@[simp] theorem runV_aluAnd (k : Nat) (rest : List Instr) (inp : Input)
    (a : Nat) : runV (.aluAnd k :: rest) inp a = runV rest inp (a &&& k) := by
  simp [runV]

@[simp] theorem runV_ja (k : Nat) (rest : List Instr) (inp : Input)
    (a : Nat) : runV (.ja k :: rest) inp a = runV (rest.drop k) inp a := by
  simp [runV]

@[simp] theorem runV_jeq (k jt jf : Nat) (rest : List Instr) (inp : Input)
    (a : Nat) : runV (.jeq k jt jf :: rest) inp a =
      runV (rest.drop (if a == k then jt else jf)) inp a := by
  simp [runV]

@[simp] theorem runV_jgt (k jt jf : Nat) (rest : List Instr) (inp : Input)
    (a : Nat) : runV (.jgt k jt jf :: rest) inp a =
      runV (rest.drop (if k < a then jt else jf)) inp a := by
  simp [runV]

@[simp] theorem runV_jge (k jt jf : Nat) (rest : List Instr) (inp : Input)
    (a : Nat) : runV (.jge k jt jf :: rest) inp a =
      runV (rest.drop (if k ≤ a then jt else jf)) inp a := by
  simp [runV]

@[simp] theorem runV_jset (k jt jf : Nat) (rest : List Instr) (inp : Input)
    (a : Nat) : runV (.jset k jt jf :: rest) inp a =
      runV (rest.drop (if a &&& k != 0 then jt else jf)) inp a := by
  simp [runV]

@[simp] theorem loadField_argHigh (inp : Input) (i : Nat) :
    loadField inp (.argHigh i) = hi32 (inp.args.getD i 0) := rfl

@[simp] theorem loadField_argLow (inp : Input) (i : Nat) :
    loadField inp (.argLow i) = lo32 (inp.args.getD i 0) := rfl

theorem drop_cons₂ {α : Type} (x y : α) (K : List α) (n : Nat) :
    (x :: y :: K).drop (2 + n) = K.drop n := by
  have h : 2 + n = n + 1 + 1 := by omega
  simp [h, List.drop_succ_cons]

theorem drop_cons₃ {α : Type} (x y z : α) (K : List α) (n : Nat) :
    (x :: y :: z :: K).drop (3 + n) = K.drop n := by
  have h : 3 + n = n + 1 + 1 + 1 := by omega
  simp [h, List.drop_succ_cons]

/-!
## Compiler correctness

Every compilation function satisfies a two-exit contract: running the
emitted block followed by any continuation `K` reaches `K.drop mT` exactly
when the lowered condition holds and `K.drop fT` otherwise (with some
accumulator value).
-/

theorem compileMatcher_correct (m : ValueMatcher) (i mT fT : Nat)
    (K : List Instr) (inp : Input) (a : Nat) :
    ∃ a2, runV (compileMatcher m i mT fT ++ K) inp a =
      runV (K.drop (if m.matchesValue (inp.args.getD i 0) then mT else fT))
        inp a2 := by
  have hnorm : inp.args[i]?.getD 0 = inp.args.getD i 0 :=
    (List.getD_eq_getElem?_getD inp.args i 0).symm
  cases m with
  | anyValue =>
      exact ⟨a, by simp [compileMatcher, ValueMatcher.matchesValue, hnorm]⟩
  | equalTo v =>
      set x := inp.args.getD i 0 with hx
      by_cases h1 : hi32 x = hi32 v
      · by_cases h2 : lo32 x = lo32 v
        · have hxv : x = v := eq_iff_halves.mpr ⟨h1, h2⟩
          exact ⟨lo32 x, by
            simp [compileMatcher, ValueMatcher.matchesValue, hnorm, h1, h2, hxv]⟩
        · have hxv : ¬(x = v) := fun h => h2 (eq_iff_halves.mp h).2
          exact ⟨lo32 x, by
            simp [compileMatcher, ValueMatcher.matchesValue, hnorm, h1, h2, hxv]⟩
      · have hxv : ¬(x = v) := fun h => h1 (eq_iff_halves.mp h).1
        exact ⟨hi32 x, by
          simp [compileMatcher, ValueMatcher.matchesValue, hnorm, h1, hxv, drop_cons₂]⟩
  | notEqualTo v =>
      set x := inp.args.getD i 0 with hx
      by_cases h1 : hi32 x = hi32 v
      · by_cases h2 : lo32 x = lo32 v
        · have hxv : x = v := eq_iff_halves.mpr ⟨h1, h2⟩
          exact ⟨lo32 x, by
            simp [compileMatcher, ValueMatcher.matchesValue, hnorm, h1, h2, hxv]⟩
        · have hxv : ¬(x = v) := fun h => h2 (eq_iff_halves.mp h).2
          exact ⟨lo32 x, by
            simp [compileMatcher, ValueMatcher.matchesValue, hnorm, h1, h2, hxv]⟩
      · have hxv : ¬(x = v) := fun h => h1 (eq_iff_halves.mp h).1
        exact ⟨hi32 x, by
          simp [compileMatcher, ValueMatcher.matchesValue, hnorm, h1, hxv, drop_cons₂]⟩
  | greaterThan v =>
      set x := inp.args.getD i 0 with hx
      by_cases hgt : hi32 v < hi32 x
      · have hxv : v < x := lt_iff_halves.mpr (Or.inl hgt)
        exact ⟨hi32 x, by
          simp [compileMatcher, ValueMatcher.matchesValue, hnorm, hgt, hxv,
            drop_cons₃]⟩
      · by_cases heq : hi32 x = hi32 v
        · by_cases hlo : lo32 v < lo32 x
          · have hxv : v < x := lt_iff_halves.mpr (Or.inr ⟨heq.symm, hlo⟩)
            exact ⟨lo32 x, by
              simp [compileMatcher, ValueMatcher.matchesValue, hnorm, hgt, heq, hlo,
                hxv]⟩
          · have hxv : ¬(v < x) := by
              intro h
              rcases lt_iff_halves.mp h with h' | ⟨h', h''⟩
              · exact hgt h'
              · exact hlo h''
            exact ⟨lo32 x, by
              simp [compileMatcher, ValueMatcher.matchesValue, hnorm, hgt, heq, hlo,
                hxv]⟩
        · have hxv : ¬(v < x) := by
            intro h
            rcases lt_iff_halves.mp h with h' | ⟨h', h''⟩
            · exact hgt h'
            · exact heq h'.symm
          exact ⟨hi32 x, by
            simp [compileMatcher, ValueMatcher.matchesValue, hnorm, hgt, heq, hxv,
              drop_cons₂]⟩
  | lessThan v =>
      set x := inp.args.getD i 0 with hx
      by_cases hgt : hi32 v < hi32 x
      · have hxv : ¬(x < v) := by
          intro h
          rcases lt_iff_halves.mp h with h' | ⟨h', h''⟩
          · omega
          · omega
        exact ⟨hi32 x, by
          simp [compileMatcher, ValueMatcher.matchesValue, hnorm, hgt, hxv,
            drop_cons₃]⟩
      · by_cases heq : hi32 x = hi32 v
        · by_cases hlo : lo32 v ≤ lo32 x
          · have hxv : ¬(x < v) := by
              intro h
              rcases lt_iff_halves.mp h with h' | ⟨h', h''⟩
              · omega
              · omega
            exact ⟨lo32 x, by
              simp [compileMatcher, ValueMatcher.matchesValue, hnorm, hgt, heq, hlo,
                hxv]⟩
          · have hxv : x < v := lt_iff_halves.mpr (Or.inr ⟨heq, by omega⟩)
            exact ⟨lo32 x, by
              simp [compileMatcher, ValueMatcher.matchesValue, hnorm, hgt, heq, hlo,
                hxv]⟩
        · have hxv : x < v := by
            have : hi32 x < hi32 v := by omega
            exact lt_iff_halves.mpr (Or.inl this)
          exact ⟨hi32 x, by
            simp [compileMatcher, ValueMatcher.matchesValue, hnorm, hgt, heq, hxv,
              drop_cons₂]⟩
  | maskedEqual mask v =>
      set x := inp.args.getD i 0 with hx
      by_cases h1 : hi32 x &&& hi32 mask = hi32 v &&& hi32 mask
      · by_cases h2 : lo32 x &&& lo32 mask = lo32 v &&& lo32 mask
        · have hxv : x &&& mask = v &&& mask :=
            masked_eq_iff_halves.mpr ⟨h1, h2⟩
          exact ⟨lo32 x &&& lo32 mask, by
            simp [compileMatcher, ValueMatcher.matchesValue, hnorm, h1, h2, hxv]⟩
        · have hxv : ¬(x &&& mask = v &&& mask) := fun h =>
            h2 (masked_eq_iff_halves.mp h).2
          exact ⟨lo32 x &&& lo32 mask, by
            simp [compileMatcher, ValueMatcher.matchesValue, hnorm, h1, h2, hxv]⟩
      · have hxv : ¬(x &&& mask = v &&& mask) := fun h =>
          h1 (masked_eq_iff_halves.mp h).1
        exact ⟨hi32 x &&& hi32 mask, by
          simp [compileMatcher, ValueMatcher.matchesValue, hnorm, h1, hxv,
            drop_cons₃]⟩
  | bitsAllowlist mask =>
      set x := inp.args.getD i 0 with hx
      set cm := compl64 mask with hcm
      by_cases h1 : hi32 x &&& hi32 cm = 0
      · by_cases h2 : lo32 x &&& lo32 cm = 0
        · have hxv : x &&& cm = 0 := masked_zero_iff_halves.mpr ⟨h1, h2⟩
          exact ⟨lo32 x, by
            simp [compileMatcher, ValueMatcher.matchesValue, hnorm, h1, h2, hxv]⟩
        · have hxv : ¬(x &&& cm = 0) := fun h =>
            h2 (masked_zero_iff_halves.mp h).2
          exact ⟨lo32 x, by
            simp [compileMatcher, ValueMatcher.matchesValue, hnorm, h1, h2, hxv]⟩
      · have hxv : ¬(x &&& cm = 0) := fun h =>
          h1 (masked_zero_iff_halves.mp h).1
        exact ⟨hi32 x, by
          simp [compileMatcher, ValueMatcher.matchesValue, hnorm, h1, hxv,
            drop_cons₂]⟩
  | bitsDenylist mask =>
      set x := inp.args.getD i 0 with hx
      by_cases h1 : hi32 x &&& hi32 mask = 0
      · by_cases h2 : lo32 x &&& lo32 mask = 0
        · have hxv : x &&& mask = 0 := masked_zero_iff_halves.mpr ⟨h1, h2⟩
          exact ⟨lo32 x, by
            simp [compileMatcher, ValueMatcher.matchesValue, hnorm, h1, h2, hxv]⟩
        · have hxv : ¬(x &&& mask = 0) := fun h =>
            h2 (masked_zero_iff_halves.mp h).2
          exact ⟨lo32 x, by
            simp [compileMatcher, ValueMatcher.matchesValue, hnorm, h1, h2, hxv]⟩
      · have hxv : ¬(x &&& mask = 0) := fun h =>
          h1 (masked_zero_iff_halves.mp h).1
        exact ⟨hi32 x, by
          simp [compileMatcher, ValueMatcher.matchesValue, hnorm, h1, hxv,
            drop_cons₂]⟩

theorem compilePerArg_correct (ms : List ValueMatcher) (i mT fT : Nat)
    (K : List Instr) (inp : Input) (a : Nat) :
    ∃ a2, runV (compilePerArg ms i mT fT ++ K) inp a =
      runV (K.drop (if perArgMatchesFrom inp.args ms i then mT else fT))
        inp a2 := by
  induction ms generalizing i a with
  | nil => exact ⟨a, by simp [compilePerArg, perArgMatchesFrom]⟩
  | cons m ms ih =>
      rw [compilePerArg, List.append_assoc]
      obtain ⟨a2, h⟩ :=
        compileMatcher_correct m i 0
          ((compilePerArg ms (i + 1) mT fT).length + fT)
          (compilePerArg ms (i + 1) mT fT ++ K) inp a
      rw [h]
      cases hm : m.matchesValue (inp.args.getD i 0) with
      | false =>
          rw [if_neg (by simp), List.drop_append]
          rw [perArgMatchesFrom, hm, Bool.false_and,
            if_neg (by simp)]
          exact ⟨a2, rfl⟩
      | true =>
          rw [if_pos rfl, List.drop_zero]
          obtain ⟨a3, h3⟩ := ih (i + 1) a2
          rw [h3, perArgMatchesFrom, hm, Bool.true_and]
          exact ⟨a3, rfl⟩

/-- The two-exit contract of a compiled rule block. -/
def RuleContract (r : SyscallRule) : Prop :=
  ∀ (mT fT : Nat) (K : List Instr) (inp : Input) (a : Nat),
    ∃ a2, runV (compileRule r mT fT ++ K) inp a =
      runV (K.drop (if ruleMatches r inp.args then mT else fT)) inp a2

theorem compileOrList_correct (rs : List SyscallRule)
    (ihs : ∀ r ∈ rs, RuleContract r) (mT fT : Nat) (K : List Instr)
    (inp : Input) (a : Nat) :
    ∃ a2, runV (compileOrList rs mT fT ++ K) inp a =
      runV (K.drop (if anyRuleMatches rs inp.args then mT else fT)) inp a2 := by
  induction rs generalizing a with
  | nil => exact ⟨a, by simp [compileOrList, anyRuleMatches]⟩
  | cons r rs ih =>
      rw [compileOrList, List.append_assoc]
      obtain ⟨a2, h⟩ := ihs r (List.mem_cons_self r rs)
        ((compileOrList rs mT fT).length + mT) 0
        (compileOrList rs mT fT ++ K) inp a
      rw [h]
      cases hm : ruleMatches r inp.args with
      | false =>
          rw [if_neg (by simp), List.drop_zero]
          obtain ⟨a3, h3⟩ :=
            ih (fun r' hr' => ihs r' (List.mem_cons_of_mem r hr')) a2
          rw [h3, anyRuleMatches, hm, Bool.false_or]
          exact ⟨a3, rfl⟩
      | true =>
          rw [if_pos rfl, List.drop_append]
          rw [anyRuleMatches, hm, Bool.true_or, if_pos rfl]
          exact ⟨a2, rfl⟩

theorem compileAndList_correct (rs : List SyscallRule)
    (ihs : ∀ r ∈ rs, RuleContract r) (mT fT : Nat) (K : List Instr)
    (inp : Input) (a : Nat) :
    ∃ a2, runV (compileAndList rs mT fT ++ K) inp a =
      runV (K.drop (if allRuleMatches rs inp.args then mT else fT)) inp a2 := by
  induction rs generalizing a with
  | nil => exact ⟨a, by simp [compileAndList, allRuleMatches]⟩
  | cons r rs ih =>
      rw [compileAndList, List.append_assoc]
      obtain ⟨a2, h⟩ := ihs r (List.mem_cons_self r rs)
        0 ((compileAndList rs mT fT).length + fT)
        (compileAndList rs mT fT ++ K) inp a
      rw [h]
      cases hm : ruleMatches r inp.args with
      | false =>
          rw [if_neg (by simp), List.drop_append]
          rw [allRuleMatches, hm, Bool.false_and, if_neg (by simp)]
          exact ⟨a2, rfl⟩
      | true =>
          rw [if_pos rfl, List.drop_zero]
          obtain ⟨a3, h3⟩ :=
            ih (fun r' hr' => ihs r' (List.mem_cons_of_mem r hr')) a2
          rw [h3, allRuleMatches, hm, Bool.true_and]
          exact ⟨a3, rfl⟩

/-- The compiled block of every rule satisfies the two-exit contract. -/
theorem compileRule_correct (r : SyscallRule) : RuleContract r := by
  induction r using SyscallRule.inductionOn with
  | hMatchAll =>
      intro mT fT K inp a
      exact ⟨a, by simp [compileRule, ruleMatches]⟩
  | hPerArg ms =>
      intro mT fT K inp a
      obtain ⟨a2, h⟩ := compilePerArg_correct ms 0 mT fT K inp a
      exact ⟨a2, by rw [compileRule, h, ruleMatches]⟩
  | hOr rs ihs =>
      intro mT fT K inp a
      obtain ⟨a2, h⟩ := compileOrList_correct rs ihs mT fT K inp a
      exact ⟨a2, by rw [compileRule, h, ruleMatches]⟩
  | hAnd rs ihs =>
      intro mT fT K inp a
      obtain ⟨a2, h⟩ := compileAndList_correct rs ihs mT fT K inp a
      exact ⟨a2, by rw [compileRule, h, ruleMatches]⟩

@[simp] theorem loadField_nr (inp : Input) : loadField inp .nr = inp.nr := rfl

@[simp] theorem loadField_arch (inp : Input) : loadField inp .arch = inp.arch := rfl

/-- Running the chained entry blocks yields the verdict of the first
matching entry in list order, or the default verdict if none match. -/
theorem compileEntries_correct (entries : List Entry) (d : Verdict)
    (inp : Input) (a : Nat) :
    runV (compileEntries entries d) inp a =
      some (firstMatchVerdict entries d inp) := by
  induction entries generalizing a with
  | nil => simp [compileEntries, firstMatchVerdict]
  | cons e es ih =>
      rw [compileEntries, runV_ld, loadField_nr, runV_jeq]
      cases hn : inp.nr == e.sysno with
      | true =>
          rw [if_pos rfl, List.drop_zero]
          obtain ⟨a2, h⟩ := compileRule_correct e.rule 0 1
            (.ret e.action :: compileEntries es d) inp inp.nr
          rw [h]
          cases hr : ruleMatches e.rule inp.args with
          | true =>
              rw [if_pos rfl, List.drop_zero, runV_ret]
              rw [firstMatchVerdict, hn, hr]
              rfl
          | false =>
              rw [if_neg (by simp)]
              have hdrop :
                  (Instr.ret e.action :: compileEntries es d).drop 1 =
                    compileEntries es d := rfl
              rw [hdrop, ih]
              rw [firstMatchVerdict, hn, hr]
              rfl
      | false =>
          rw [if_neg (by simp)]
          have hassoc :
              (compileRule e.rule 0 1 ++
                (Instr.ret e.action :: compileEntries es d)).drop
                ((compileRule e.rule 0 1).length + 1) =
                compileEntries es d := by
            rw [List.drop_append]
            rfl
          rw [hassoc, ih]
          rw [firstMatchVerdict, hn]
          rfl

/-- A successfully compiled program carries exactly the full lowered code,
the requested architecture tag and the requested default verdict. -/
theorem compile_ok (entries : List Entry) (d : Verdict) (arch : Nat)
    (p : Program) (h : compile entries d arch = .ok p) :
    p.instructions = compileEntries entries d ∧ p.arch = arch ∧
      p.defaultAction = d ∧ p.instructions.length ≤ MaxInstructions := by
  unfold compile at h
  by_cases hlen : (compileEntries entries d).length ≤ MaxInstructions
  · rw [if_pos hlen] at h
    cases h
    exact ⟨rfl, rfl, rfl, hlen⟩
  · rw [if_neg hlen] at h
    exact absurd h (by simp)

/-- When compilation does not succeed it fails with the budget-exceeded
error, and only because the lowered code exceeds the budget. -/
theorem compile_error (entries : List Entry) (d : Verdict) (arch : Nat)
    (h : ¬(compileEntries entries d).length ≤ MaxInstructions) :
    compile entries d arch = .error .budgetExceeded := by
  unfold compile
  rw [if_neg h]

/-!
## The optimizer

Modelled from the spec: passes applied in sequence until fixpoint or a pass
budget is exhausted.  Jump threading collapses a jump to a jump into a
direct jump to the final target; dead-code elimination removes instructions
unreachable by any jump (and renumbers the remaining jump offsets).  The
common-comparison-merging and range/mask-consolidation passes are specified
only conditionally ("when safe" / "when semantically equivalent") and are
modelled as the safe identity instance.
-/

/-- Follow a chain of unconditional jumps starting at absolute index `t`;
the fuel bounds the chain length (forward jumps make chains finite). -/
def resolveJa (code : List Instr) : Nat → Nat → Nat
  | 0, t => t
  | fuel + 1, t =>
      match code[t]? with
      | some (.ja k) => resolveJa code fuel (t + 1 + k)
      | _ => t

/-- Rewrite one instruction at absolute index `i`, redirecting each jump
offset to the final target of any `ja` chain it enters. -/
def threadInstr (code : List Instr) (i : Nat) : Instr → Instr
  | .ja k => .ja (resolveJa code code.length (i + 1 + k) - (i + 1))
  | .jeq c jt jf =>
      .jeq c (resolveJa code code.length (i + 1 + jt) - (i + 1))
        (resolveJa code code.length (i + 1 + jf) - (i + 1))
  | .jgt c jt jf =>
      .jgt c (resolveJa code code.length (i + 1 + jt) - (i + 1))
        (resolveJa code code.length (i + 1 + jf) - (i + 1))
  | .jge c jt jf =>
      .jge c (resolveJa code code.length (i + 1 + jt) - (i + 1))
        (resolveJa code code.length (i + 1 + jf) - (i + 1))
  | .jset c jt jf =>
      .jset c (resolveJa code code.length (i + 1 + jt) - (i + 1))
        (resolveJa code code.length (i + 1 + jf) - (i + 1))
  | ins => ins

/-- Thread the instruction list `l` whose first element sits at absolute
index `i` of `code`. -/
def threadFrom (code : List Instr) : Nat → List Instr → List Instr
  | _, [] => []
  | i, ins :: rest => threadInstr code i ins :: threadFrom code (i + 1) rest

/-- The jump-threading pass. -/
def thread (code : List Instr) : List Instr := threadFrom code 0 code

theorem threadFrom_length (code : List Instr) :
    ∀ (l : List Instr) (i : Nat), (threadFrom code i l).length = l.length := by
  intro l
  induction l with
  | nil => intro i; rfl
  | cons ins rest ih => intro i; simp [threadFrom, ih]

/-- Threading never changes the program length. -/
theorem thread_length (code : List Instr) :
    (thread code).length = code.length := threadFrom_length code code 0

theorem threadFrom_drop (code : List Instr) :
    ∀ (l : List Instr) (i t : Nat),
      (threadFrom code i l).drop t = threadFrom code (i + t) (l.drop t) := by
  intro l
  induction l with
  | nil => intro i t; simp [threadFrom]
  | cons ins rest ih =>
      intro i t
      cases t with
      | zero => simp [threadFrom]
      | succ t' =>
          rw [threadFrom, List.drop_succ_cons, List.drop_succ_cons, ih]
          congr 1
          omega

/-- `resolveJa` only moves forward. -/
theorem resolveJa_le (code : List Instr) :
    ∀ (fuel t : Nat), t ≤ resolveJa code fuel t := by
  intro fuel
  induction fuel with
  | zero => intro t; simp [resolveJa]
  | succ n ih =>
      intro t
      rw [resolveJa]
      rcases h : code[t]? with _ | ins
      · simp
      · cases ins <;> simp
        exact le_trans (by omega) (ih _)

/-- Following a `ja` chain does not change the execution result. -/
theorem resolveJa_sem (code : List Instr) (inp : Input) :
    ∀ (fuel t : Nat) (a : Nat),
      runV (code.drop (resolveJa code fuel t)) inp a =
        runV (code.drop t) inp a := by
  intro fuel
  induction fuel with
  | zero => intro t a; simp [resolveJa]
  | succ n ih =>
      intro t a
      rw [resolveJa]
      rcases h : code[t]? with _ | ins
      · rfl
      · have hlt : t < code.length := by
          by_contra hge
          rw [List.getElem?_eq_none (by omega)] at h
          exact Option.noConfusion h
        have hget : code[t] = ins := by
          rw [List.getElem?_eq_getElem hlt] at h
          exact Option.some.injEq _ _ ▸ h.symm ▸ rfl
        cases ins with
        | ja k =>
            rw [ih]
            have hdrop : code.drop t = .ja k :: code.drop (t + 1) := by
              rw [List.drop_eq_getElem_cons hlt, hget]
            rw [hdrop, runV_ja, List.drop_drop]
        | ld f => rfl
        | aluAnd k => rfl
        | jeq c jt jf => rfl
        | jgt c jt jf => rfl
        | jge c jt jf => rfl
        | jset c jt jf => rfl
        | ret v => rfl

/-- Jump threading preserves the execution result from every program
point. -/
theorem thread_sim (code : List Instr) (inp : Input) :
    ∀ (n t a : Nat), code.length - t ≤ n →
      runV (threadFrom code t (code.drop t)) inp a =
        runV (code.drop t) inp a := by
  intro n
  induction n with
  | zero =>
      intro t a h
      have hlen : code.length ≤ t := by omega
      rw [List.drop_eq_nil_of_le hlen]
      rfl
  | succ n ih =>
      intro t a h
      by_cases hlt : t < code.length
      · have hdrop : code.drop t = code[t] :: code.drop (t + 1) :=
          List.drop_eq_getElem_cons hlt
        have hbr : ∀ (off a' : Nat),
            runV ((threadFrom code (t + 1) (code.drop (t + 1))).drop
              (resolveJa code code.length (t + 1 + off) - (t + 1))) inp a' =
              runV (code.drop (t + 1 + off)) inp a' := by
          intro off a'
          rw [threadFrom_drop]
          have hres : t + 1 + (resolveJa code code.length (t + 1 + off) - (t + 1)) =
              resolveJa code code.length (t + 1 + off) := by
            have := resolveJa_le code code.length (t + 1 + off)
            omega
          rw [List.drop_drop]
          rw [show t + 1 + (resolveJa code code.length (t + 1 + off) - (t + 1)) =
            resolveJa code code.length (t + 1 + off) from hres]
          rw [ih (resolveJa code code.length (t + 1 + off)) a'
            (by have := resolveJa_le code code.length (t + 1 + off); omega)]
          exact resolveJa_sem code inp code.length (t + 1 + off) a'
        rw [hdrop, threadFrom]
        cases hins : code[t] with
        | ret v => simp [threadInstr]
        | ld f =>
            simp only [threadInstr, runV_ld]
            exact ih (t + 1) (loadField inp f) (by omega)
        | aluAnd k =>
            simp only [threadInstr, runV_aluAnd]
            exact ih (t + 1) (a &&& k) (by omega)
        | ja k =>
            rw [threadInstr, runV_ja, runV_ja, List.drop_drop]
            exact hbr k a
        | jeq c jt jf =>
            rw [threadInstr, runV_jeq, runV_jeq]
            cases hc : a == c
            · rw [if_neg (by simp), if_neg (by simp), List.drop_drop]
              exact hbr jf a
            · rw [if_pos rfl, if_pos rfl, List.drop_drop]
              exact hbr jt a
        | jgt c jt jf =>
            rw [threadInstr, runV_jgt, runV_jgt]
            by_cases hc : c < a
            · rw [if_pos hc, if_pos hc, List.drop_drop]
              exact hbr jt a
            · rw [if_neg hc, if_neg hc, List.drop_drop]
              exact hbr jf a
        | jge c jt jf =>
            rw [threadInstr, runV_jge, runV_jge]
            by_cases hc : c ≤ a
            · rw [if_pos hc, if_pos hc, List.drop_drop]
              exact hbr jt a
            · rw [if_neg hc, if_neg hc, List.drop_drop]
              exact hbr jf a
        | jset c jt jf =>
            rw [threadInstr, runV_jset, runV_jset]
            cases hc : a &&& c != 0
            · rw [if_neg (by simp), if_neg (by simp), List.drop_drop]
              exact hbr jf a
            · rw [if_pos rfl, if_pos rfl, List.drop_drop]
              exact hbr jt a
      · rw [List.drop_eq_nil_of_le (by omega)]
        rfl

/-!
## Dead-code elimination

Reachability is computed by a single forward scan (all jumps are
forward-only, so a single ascending pass marks exactly the instructions
reachable from the entry point); unreachable instructions are removed and
the remaining jump offsets renumbered.
-/

/-- Placeholder instruction used for total indexing. -/
def defaultInstr : Instr := .ret .allow

/-- The instruction at absolute index `i`. -/
def instrAt (code : List Instr) (i : Nat) : Instr := code.getD i defaultInstr

/-- Absolute indices of the possible successors of the instruction at
absolute index `i`. -/
def succsAt : Instr → Nat → List Nat
  | .ret _, _ => []
  | .ja k, i => [i + 1 + k]
  | .jeq _ jt jf, i => [i + 1 + jt, i + 1 + jf]
  | .jgt _ jt jf, i => [i + 1 + jt, i + 1 + jf]
  | .jge _ jt jf, i => [i + 1 + jt, i + 1 + jf]
  | .jset _ jt jf, i => [i + 1 + jt, i + 1 + jf]
  | .ld _, i => [i + 1]
  | .aluAnd _, i => [i + 1]

theorem succsAt_gt (ins : Instr) (i : Nat) : ∀ j ∈ succsAt ins i, i < j := by
  cases ins <;> simp [succsAt] <;> omega

/-- An instruction index reachable from the program entry point by
following fallthroughs and jumps. -/
inductive Reachable (code : List Instr) : Nat → Prop where
  | zero : Reachable code 0
  | step {i j : Nat} : Reachable code i → i < code.length →
      j ∈ succsAt (instrAt code i) i → Reachable code j

/-- Mark a list of indices. -/
def markSuccs (m : List Bool) (js : List Nat) : List Bool :=
  js.foldl (fun acc j => acc.set j true) m

/-- One step of the forward reachability scan. -/
def scanStep (code : List Instr) (m : List Bool) (i : Nat) : List Bool :=
  if m.getD i false then markSuccs m (succsAt (instrAt code i) i) else m

/-- Initial marking: only the entry point. -/
def initMarks (code : List Instr) : List Bool :=
  (List.replicate code.length false).set 0 true

/-- The reachability marking of a program: a single ascending scan. -/
def reachMarks (code : List Instr) : List Bool :=
  (List.range code.length).foldl (scanStep code) (initMarks code)

/-- Whether the instruction at absolute index `i` is kept by dead-code
elimination. -/
def kept (code : List Instr) (i : Nat) : Bool := (reachMarks code).getD i false

theorem set_true_getD_mono {m : List Bool} {i j : Nat}
    (h : m.getD i false = true) : (m.set j true).getD i false = true := by
  by_cases hlen : j < m.length
  · by_cases hij : i = j
    · subst hij
      rw [List.getD_eq_getElem?_getD, List.getElem?_set_self (h := hlen)]
      rfl
    · rw [List.getD_eq_getElem?_getD, List.getElem?_set_ne (Ne.symm hij),
        ← List.getD_eq_getElem?_getD]
      exact h
  · rw [List.set_eq_of_length_le (by omega)]
    exact h

theorem set_true_getD_self {m : List Bool} {j : Nat} (h : j < m.length) :
    (m.set j true).getD j false = true := by
  rw [List.getD_eq_getElem?_getD, List.getElem?_set_self (h := h)]
  rfl

theorem set_true_getD_ne {m : List Bool} {i j : Nat} (h : i ≠ j) :
    (m.set j true).getD i false = m.getD i false := by
  rw [List.getD_eq_getElem?_getD, List.getElem?_set_ne (Ne.symm h),
    ← List.getD_eq_getElem?_getD]

theorem markSuccs_length (m : List Bool) (js : List Nat) :
    (markSuccs m js).length = m.length := by
  induction js generalizing m with
  | nil => rfl
  | cons j js ih =>
      rw [markSuccs, List.foldl_cons,
        show List.foldl (fun acc j => acc.set j true) (m.set j true) js =
          markSuccs (m.set j true) js from rfl, ih]
      exact List.length_set m j true

theorem markSuccs_mono {m : List Bool} {i : Nat} (js : List Nat)
    (h : m.getD i false = true) : (markSuccs m js).getD i false = true := by
  induction js generalizing m with
  | nil => exact h
  | cons j js ih =>
      rw [markSuccs, List.foldl_cons]
      exact ih (set_true_getD_mono h)

theorem markSuccs_sets {m : List Bool} {j : Nat} (js : List Nat)
    (hj : j ∈ js) (hlen : j < m.length) :
    (markSuccs m js).getD j false = true := by
  induction js generalizing m with
  | nil => cases hj
  | cons j' js ih =>
      rw [markSuccs, List.foldl_cons]
      rcases List.mem_cons.mp hj with h | h
      · subst h
        exact markSuccs_mono js (set_true_getD_self hlen)
      · exact ih h (by simpa using hlen)

theorem markSuccs_getD_of_not_mem {m : List Bool} {i : Nat} (js : List Nat)
    (h : i ∉ js) : (markSuccs m js).getD i false = m.getD i false := by
  induction js generalizing m with
  | nil => rfl
  | cons j js ih =>
      rw [markSuccs, List.foldl_cons]
      have hij : i ≠ j := fun he => h (he ▸ List.mem_cons_self j js)
      rw [show List.foldl (fun acc (jj : Nat) => acc.set jj true) (m.set j true) js =
        markSuccs (m.set j true) js from rfl]
      rw [ih (fun hm => h (List.mem_cons_of_mem j hm)), set_true_getD_ne hij]

theorem markSuccs_cases {m : List Bool} {i : Nat} (js : List Nat)
    (h : (markSuccs m js).getD i false = true) :
    i ∈ js ∨ m.getD i false = true := by
  by_cases hm : i ∈ js
  · exact Or.inl hm
  · right
    rw [← markSuccs_getD_of_not_mem js hm]
    exact h

theorem foldl_inv {α β : Type} (f : β → α → β) (P : β → Prop) :
    ∀ (l : List α) (b : β), P b → (∀ b' a, a ∈ l → P b' → P (f b' a)) →
      P (l.foldl f b) := by
  intro l
  induction l with
  | nil => intro b hb _; exact hb
  | cons a l ih =>
      intro b hb hf
      rw [List.foldl_cons]
      exact ih (f b a) (hf b a (List.mem_cons_self a l) hb)
        (fun b' a' ha' => hf b' a' (List.mem_cons_of_mem a ha'))

theorem scanStep_length (code : List Instr) (m : List Bool) (i : Nat) :
    (scanStep code m i).length = m.length := by
  rw [scanStep]
  by_cases h : m.getD i false
  · rw [if_pos h]; exact markSuccs_length m _
  · rw [if_neg h]

theorem scanStep_mono (code : List Instr) {m : List Bool} {i k : Nat}
    (h : m.getD i false = true) : (scanStep code m k).getD i false = true := by
  rw [scanStep]
  by_cases hk : m.getD k false
  · rw [if_pos hk]; exact markSuccs_mono _ h
  · rw [if_neg hk]; exact h

theorem initMarks_getD_ne_zero (code : List Instr) {i : Nat} (h : i ≠ 0) :
    (initMarks code).getD i false = false := by
  rw [initMarks, set_true_getD_ne h]
  by_cases hlen : i < code.length
  · rw [List.getD_eq_getElem _ _ (by simpa using hlen)]
    simp
  · rw [List.getD_eq_default _ _ (by simpa using Nat.le_of_not_lt hlen)]

/-- Every index marked by the scan is reachable. -/
theorem reachMarks_sound (code : List Instr) :
    ∀ i, kept code i = true → Reachable code i := by
  have h := foldl_inv (scanStep code)
    (fun m => ∀ i, m.getD i false = true → Reachable code i)
    (List.range code.length) (initMarks code)
    (by
      intro i hi
      by_cases h0 : i = 0
      · exact h0 ▸ Reachable.zero
      · rw [initMarks_getD_ne_zero code h0] at hi
        exact Bool.noConfusion hi)
    (by
      intro m k hk hm i hi
      rw [scanStep] at hi
      by_cases hmk : m.getD k false
      · rw [if_pos hmk] at hi
        rcases markSuccs_cases _ hi with hmem | hold
        · exact Reachable.step (hm k hmk) (List.mem_range.mp hk) hmem
        · exact hm i hold
      · rw [if_neg hmk] at hi
        exact hm i hi)
  exact h

/-- Closure property carried by the ascending scan: every already-marked
index below the scan position has all its in-range successors marked. -/
def SuccsClosed (code : List Instr) (m : List Bool) (a : Nat) : Prop :=
  ∀ i, i < a → m.getD i false = true →
    ∀ j ∈ succsAt (instrAt code i) i, j < code.length → m.getD j false = true

theorem range'_succ_one (a n : Nat) :
    List.range' a (n + 1) = a :: List.range' (a + 1) n := by
  have := List.range'_succ a n 1
  simpa using this

theorem scan_closure_aux (code : List Instr) :
    ∀ (n a : Nat) (m : List Bool), a + n = code.length →
      m.length = code.length → SuccsClosed code m a →
      ((List.range' a n).foldl (scanStep code) m).length = code.length ∧
        SuccsClosed code ((List.range' a n).foldl (scanStep code) m)
          code.length := by
  intro n
  induction n with
  | zero =>
      intro a m ha hm hc
      have : a = code.length := by omega
      subst this
      exact ⟨hm, hc⟩
  | succ n ih =>
      intro a m ha hm hc
      rw [range'_succ_one, List.foldl_cons]
      apply ih (a + 1) (scanStep code m a) (by omega)
        (by rw [scanStep_length]; exact hm)
      intro i hi hmi j hjs hjl
      by_cases hia : i = a
      · subst hia
        rw [scanStep] at hmi ⊢
        by_cases hma : m.getD i false
        · rw [if_pos hma]
          exact markSuccs_sets _ hjs (by omega)
        · rw [if_neg hma] at hmi
          exact absurd hmi hma
      · have hilt : i < a := by omega
        have hfix : (scanStep code m a).getD i false = m.getD i false := by
          rw [scanStep]
          by_cases hma : m.getD a false
          · rw [if_pos hma]
            apply markSuccs_getD_of_not_mem
            intro hmem
            have := succsAt_gt _ _ i hmem
            omega
          · rw [if_neg hma]
        rw [hfix] at hmi
        exact scanStep_mono code (hc i hilt hmi j hjs hjl)

theorem reachMarks_length (code : List Instr) :
    (reachMarks code).length = code.length := by
  rw [reachMarks, List.range_eq_range']
  exact (scan_closure_aux code code.length 0 (initMarks code) (by omega)
    (by rw [initMarks, List.length_set, List.length_replicate])
    (fun i hi => absurd hi (by omega))).1

/-- The scan marking is closed under in-range successors. -/
theorem kept_closed (code : List Instr) {i : Nat} (hk : kept code i = true)
    (hi : i < code.length) :
    ∀ j ∈ succsAt (instrAt code i) i, j < code.length →
      kept code j = true := by
  intro j hjs hjl
  have h := (scan_closure_aux code code.length 0 (initMarks code) (by omega)
    (by rw [initMarks, List.length_set, List.length_replicate])
    (fun i hi => absurd hi (by omega))).2
  rw [kept, reachMarks, List.range_eq_range']
  rw [kept, reachMarks, List.range_eq_range'] at hk
  exact h i hi hk j hjs hjl

/-- The entry point of a nonempty program is always kept. -/
theorem kept_zero (code : List Instr) (h : code ≠ []) :
    kept code 0 = true := by
  rw [kept, reachMarks]
  apply foldl_inv (scanStep code) (fun m => m.getD 0 false = true)
  · rw [initMarks]
    apply set_true_getD_self
    rw [List.length_replicate]
    exact List.length_pos.mpr h
  · intro m k _ hm
    exact scanStep_mono code hm

/-- No instruction beyond the end of the program is kept. -/
theorem kept_of_ge (code : List Instr) {i : Nat} (h : code.length ≤ i) :
    kept code i = false := by
  rw [kept, List.getD_eq_default]
  rw [reachMarks_length]
  exact h

/-- Number of kept instructions with absolute index in `[i, t)`. -/
def countKeptFrom (code : List Instr) (i t : Nat) : Nat :=
  if i < t then
    (if kept code i then 1 else 0) + countKeptFrom code (i + 1) t
  else 0
termination_by t - i

/-- New absolute index of old absolute index `t` after dead-code
elimination. -/
def newIdx (code : List Instr) (t : Nat) : Nat := countKeptFrom code 0 t

/-- Renumber the jump offsets of the instruction at old absolute index `i`
for the dead-code-eliminated program. -/
def remapInstr (code : List Instr) (i : Nat) : Instr → Instr
  | .ja k => .ja (newIdx code (i + 1 + k) - (newIdx code i + 1))
  | .jeq c jt jf =>
      .jeq c (newIdx code (i + 1 + jt) - (newIdx code i + 1))
        (newIdx code (i + 1 + jf) - (newIdx code i + 1))
  | .jgt c jt jf =>
      .jgt c (newIdx code (i + 1 + jt) - (newIdx code i + 1))
        (newIdx code (i + 1 + jf) - (newIdx code i + 1))
  | .jge c jt jf =>
      .jge c (newIdx code (i + 1 + jt) - (newIdx code i + 1))
        (newIdx code (i + 1 + jf) - (newIdx code i + 1))
  | .jset c jt jf =>
      .jset c (newIdx code (i + 1 + jt) - (newIdx code i + 1))
        (newIdx code (i + 1 + jf) - (newIdx code i + 1))
  | ins => ins

/-- The dead-code-eliminated tail of the program starting at old absolute
index `i`. -/
def dceFrom (code : List Instr) (i : Nat) : List Instr :=
  if i < code.length then
    (if kept code i then [remapInstr code i (instrAt code i)] else []) ++
      dceFrom code (i + 1)
  else []
termination_by code.length - i

/-- The dead-code-elimination pass. -/
def dce (code : List Instr) : List Instr := dceFrom code 0

theorem countKeptFrom_self (code : List Instr) (a : Nat) :
    countKeptFrom code a a = 0 := by
  rw [countKeptFrom]
  rw [if_neg (by omega)]

theorem countKeptFrom_split (code : List Instr) :
    ∀ (n a b c : Nat), b - a ≤ n → a ≤ b → b ≤ c →
      countKeptFrom code a c = countKeptFrom code a b + countKeptFrom code b c := by
  intro n
  induction n with
  | zero =>
      intro a b c h hab hbc
      have : a = b := by omega
      subst this
      rw [countKeptFrom_self]
      omega
  | succ n ih =>
      intro a b c h hab hbc
      by_cases hab' : a < b
      · have hac : countKeptFrom code a c =
            (if kept code a then 1 else 0) + countKeptFrom code (a + 1) c := by
          rw [countKeptFrom, if_pos (by omega)]
        have hab2 : countKeptFrom code a b =
            (if kept code a then 1 else 0) + countKeptFrom code (a + 1) b := by
          rw [countKeptFrom, if_pos hab']
        rw [hac, hab2, ih (a + 1) b c (by omega) (by omega) hbc]
        omega
      · have : a = b := by omega
        subst this
        rw [countKeptFrom_self]
        omega

theorem countKeptFrom_le (code : List Instr) :
    ∀ (n i t : Nat), t - i ≤ n → countKeptFrom code i t ≤ t - i := by
  intro n
  induction n with
  | zero =>
      intro i t h
      rw [countKeptFrom, if_neg (by omega)]
      omega
  | succ n ih =>
      intro i t h
      by_cases hit : i < t
      · rw [countKeptFrom, if_pos hit]
        have := ih (i + 1) t (by omega)
        by_cases hk : kept code i <;> simp [hk] <;> omega
      · rw [countKeptFrom, if_neg hit]
        omega

theorem countKeptFrom_zero_of_ge (code : List Instr) :
    ∀ (n i t : Nat), t - i ≤ n → code.length ≤ i →
      countKeptFrom code i t = 0 := by
  intro n
  induction n with
  | zero =>
      intro i t h hlen
      rw [countKeptFrom, if_neg (by omega)]
  | succ n ih =>
      intro i t h hlen
      by_cases hit : i < t
      · rw [countKeptFrom, if_pos hit, kept_of_ge code hlen,
          ih (i + 1) t (by omega) (by omega)]
        simp
      · rw [countKeptFrom, if_neg hit]

/-- Beyond the program, `newIdx` saturates at the total kept count. -/
theorem newIdx_of_ge (code : List Instr) {t : Nat} (h : code.length ≤ t) :
    newIdx code t = newIdx code code.length := by
  rw [newIdx, newIdx,
    countKeptFrom_split code t 0 code.length t (by omega) (by omega) h,
    countKeptFrom_zero_of_ge code t code.length t (by omega) (by omega)]
  omega

theorem newIdx_mono (code : List Instr) {a b : Nat} (h : a ≤ b) :
    newIdx code a ≤ newIdx code b := by
  rw [newIdx, newIdx, countKeptFrom_split code b 0 a b (by omega) (by omega) h]
  omega

theorem newIdx_succ_of_kept (code : List Instr) {t : Nat}
    (h : kept code t = true) : newIdx code (t + 1) = newIdx code t + 1 := by
  have h1 : countKeptFrom code t (t + 1) = 1 := by
    rw [countKeptFrom, if_pos (by omega), h, if_pos rfl, countKeptFrom_self]
  rw [newIdx, newIdx,
    countKeptFrom_split code (t + 1) 0 t (t + 1) (by omega) (by omega)
      (by omega), h1]

theorem dceFrom_length (code : List Instr) :
    ∀ (n i : Nat), code.length - i ≤ n →
      (dceFrom code i).length = countKeptFrom code i code.length := by
  intro n
  induction n with
  | zero =>
      intro i h
      rw [dceFrom, if_neg (by omega), countKeptFrom, if_neg (by omega)]
      rfl
  | succ n ih =>
      intro i h
      by_cases hi : i < code.length
      · rw [dceFrom, if_pos hi, countKeptFrom, if_pos hi,
          List.length_append, ih (i + 1) (by omega)]
        by_cases hk : kept code i <;> simp [hk]
      · rw [dceFrom, if_neg hi, countKeptFrom, if_neg hi]
        rfl

theorem dceFrom_drop (code : List Instr) :
    ∀ (n i t : Nat), t - i ≤ n → i ≤ t → t ≤ code.length →
      (dceFrom code i).drop (countKeptFrom code i t) = dceFrom code t := by
  intro n
  induction n with
  | zero =>
      intro i t h hit htl
      have : i = t := by omega
      subst this
      rw [countKeptFrom, if_neg (by omega), List.drop_zero]
  | succ n ih =>
      intro i t h hit htl
      by_cases hit' : i < t
      · rw [dceFrom, if_pos (by omega), countKeptFrom, if_pos hit']
        by_cases hk : kept code i
        · rw [if_pos hk, if_pos hk]
          have hone : (1 : Nat) + countKeptFrom code (i + 1) t =
              ([remapInstr code i (instrAt code i)]).length +
                countKeptFrom code (i + 1) t := by simp
          rw [hone, List.drop_append]
          exact ih (i + 1) t (by omega) (by omega) htl
        · rw [if_neg hk, if_neg hk, List.nil_append]
          rw [show (0 : Nat) + countKeptFrom code (i + 1) t =
            countKeptFrom code (i + 1) t by omega]
          exact ih (i + 1) t (by omega) (by omega) htl
      · have : i = t := by omega
        subst this
        rw [countKeptFrom, if_neg (by omega), List.drop_zero]

/-- Dropping the renumbered prefix of the dead-code-eliminated program
lands exactly at the renumbered position of old index `t`. -/
theorem dce_drop_newIdx (code : List Instr) {t : Nat} (h : t ≤ code.length) :
    (dce code).drop (newIdx code t) = dceFrom code t :=
  dceFrom_drop code t 0 t (by omega) (by omega) h

/-- Dead-code elimination preserves the execution result from every kept
program point. -/
theorem dce_sim (code : List Instr) (inp : Input) :
    ∀ (n t a : Nat), code.length - t ≤ n → t < code.length →
      kept code t = true →
      runV (dceFrom code t) inp a = runV (code.drop t) inp a := by
  intro n
  induction n with
  | zero => intro t a h hlt _; omega
  | succ n ih =>
      intro t a h hlt hk
      have hn1 : newIdx code (t + 1) = newIdx code t + 1 :=
        newIdx_succ_of_kept code hk
      have hjump : ∀ (off a' : Nat),
          (t + 1 + off) ∈ succsAt (instrAt code t) t →
          runV ((dceFrom code (t + 1)).drop
              (newIdx code (t + 1 + off) - (newIdx code t + 1))) inp a' =
            runV (code.drop (t + 1 + off)) inp a' := by
        intro off a' hmem
        by_cases htgt : t + 1 + off < code.length
        · have hktgt : kept code (t + 1 + off) = true :=
            kept_closed code hk hlt (t + 1 + off) hmem htgt
          have heq : newIdx code (t + 1 + off) - (newIdx code t + 1) =
              countKeptFrom code (t + 1) (t + 1 + off) := by
            have hsplit := countKeptFrom_split code (t + 1 + off) 0 (t + 1)
              (t + 1 + off) (by omega) (by omega) (by omega)
            have : newIdx code (t + 1 + off) =
                newIdx code (t + 1) + countKeptFrom code (t + 1) (t + 1 + off) := by
              rw [newIdx, newIdx]
              exact hsplit
            omega
          rw [heq, dceFrom_drop code (t + 1 + off) (t + 1) (t + 1 + off)
            (by omega) (by omega) (by omega)]
          exact ih (t + 1 + off) a' (by omega) htgt hktgt
        · have hr : code.drop (t + 1 + off) = [] :=
            List.drop_eq_nil_of_le (by omega)
          have hsat : newIdx code (t + 1 + off) =
              newIdx code t + 1 + countKeptFrom code (t + 1) code.length := by
            rw [newIdx_of_ge code (by omega), ← hn1, newIdx, newIdx,
              countKeptFrom_split code code.length 0 (t + 1) code.length
                (by omega) (by omega) (by omega)]
          have hl : (dceFrom code (t + 1)).drop
              (newIdx code (t + 1 + off) - (newIdx code t + 1)) = [] := by
            apply List.drop_eq_nil_of_le
            rw [dceFrom_length code code.length (t + 1) (by omega)]
            omega
          rw [hl, hr]
      have hdce : dceFrom code t =
          remapInstr code t (instrAt code t) :: dceFrom code (t + 1) := by
        rw [dceFrom]
        rw [if_pos hlt, if_pos hk]
        rfl
      have hdrop : code.drop t = instrAt code t :: code.drop (t + 1) := by
        rw [List.drop_eq_getElem_cons hlt]
        congr 1
        rw [instrAt, List.getD_eq_getElem _ _ (by simpa using hlt)]
      rw [hdce, hdrop]
      cases hins : instrAt code t with
      | ret v => simp [remapInstr]
      | ld f =>
          simp only [remapInstr, runV_ld]
          have h0 := hjump 0 (loadField inp f) (by rw [hins]; simp [succsAt])
          rw [show t + 1 + 0 = t + 1 from rfl] at h0
          rw [hn1, Nat.sub_self, List.drop_zero] at h0
          exact h0
      | aluAnd k =>
          simp only [remapInstr, runV_aluAnd]
          have h0 := hjump 0 (a &&& k) (by rw [hins]; simp [succsAt])
          rw [show t + 1 + 0 = t + 1 from rfl] at h0
          rw [hn1, Nat.sub_self, List.drop_zero] at h0
          exact h0
      | ja k =>
          simp only [remapInstr, runV_ja]
          rw [List.drop_drop]
          have h0 := hjump k a (by rw [hins]; simp [succsAt])
          rw [show t + 1 + k = t + 1 + k from rfl] at h0
          exact h0
      | jeq c jt jf =>
          simp only [remapInstr, runV_jeq]
          cases hc : a == c
          · rw [if_neg (by simp), if_neg (by simp), List.drop_drop]
            exact hjump jf a (by rw [hins]; simp [succsAt])
          · rw [if_pos rfl, if_pos rfl, List.drop_drop]
            exact hjump jt a (by rw [hins]; simp [succsAt])
      | jgt c jt jf =>
          simp only [remapInstr, runV_jgt]
          by_cases hc : c < a
          · rw [if_pos hc, if_pos hc, List.drop_drop]
            exact hjump jt a (by rw [hins]; simp [succsAt])
          · rw [if_neg hc, if_neg hc, List.drop_drop]
            exact hjump jf a (by rw [hins]; simp [succsAt])
      | jge c jt jf =>
          simp only [remapInstr, runV_jge]
          by_cases hc : c ≤ a
          · rw [if_pos hc, if_pos hc, List.drop_drop]
            exact hjump jt a (by rw [hins]; simp [succsAt])
          · rw [if_neg hc, if_neg hc, List.drop_drop]
            exact hjump jf a (by rw [hins]; simp [succsAt])
      | jset c jt jf =>
          simp only [remapInstr, runV_jset]
          cases hc : a &&& c != 0
          · rw [if_neg (by simp), if_neg (by simp), List.drop_drop]
            exact hjump jf a (by rw [hins]; simp [succsAt])
          · rw [if_pos rfl, if_pos rfl, List.drop_drop]
            exact hjump jt a (by rw [hins]; simp [succsAt])

/-- Dead-code elimination preserves the execution result. -/
theorem dce_preserves (code : List Instr) (inp : Input) (a : Nat) :
    runV (dce code) inp a = runV code inp a := by
  by_cases h : code = []
  · subst h
    rw [dce, dceFrom]
    rfl
  · have h0 := dce_sim code inp code.length 0 a (by omega)
      (List.length_pos.mpr h) (kept_zero code h)
    rw [List.drop_zero] at h0
    exact h0

/-- Dead-code elimination never lengthens the program. -/
theorem dce_length_le (code : List Instr) :
    (dce code).length ≤ code.length := by
  rw [dce, dceFrom_length code code.length 0 (by omega)]
  have := countKeptFrom_le code code.length 0 code.length (by omega)
  omega

theorem dceFrom_surj (code : List Instr) :
    ∀ (n i j : Nat), code.length - i ≤ n → j < (dceFrom code i).length →
      ∃ t, i ≤ t ∧ t < code.length ∧ kept code t = true ∧
        countKeptFrom code i t = j := by
  intro n
  induction n with
  | zero =>
      intro i j h hj
      rw [dceFrom, if_neg (by omega)] at hj
      exact absurd hj (by simp)
  | succ n ih =>
      intro i j h hj
      by_cases hi : i < code.length
      · rw [dceFrom, if_pos hi] at hj
        by_cases hk : kept code i
        · rw [if_pos hk] at hj
          cases j with
          | zero =>
              exact ⟨i, by omega, hi, hk, countKeptFrom_self code i⟩
          | succ j' =>
              obtain ⟨t, hit, htl, hkt, hcnt⟩ := ih (i + 1) j' (by omega)
                (by simp at hj; omega)
              refine ⟨t, by omega, htl, hkt, ?_⟩
              rw [countKeptFrom, if_pos (by omega), hk, if_pos rfl, hcnt]
              omega
        · rw [if_neg hk, List.nil_append] at hj
          obtain ⟨t, hit, htl, hkt, hcnt⟩ := ih (i + 1) j (by omega) hj
          refine ⟨t, by omega, htl, hkt, ?_⟩
          rw [countKeptFrom, if_pos (by omega), if_neg hk]
          omega
      · rw [dceFrom, if_neg hi] at hj
        exact absurd hj (by simp)

/-- The instruction of the dead-code-eliminated program at the renumbered
position of a kept index is the renumbered original instruction. -/
theorem dce_instrAt (code : List Instr) {t : Nat} (hlt : t < code.length)
    (hk : kept code t = true) :
    instrAt (dce code) (newIdx code t) =
        remapInstr code t (instrAt code t) ∧
      newIdx code t < (dce code).length := by
  have hdrop : (dce code).drop (newIdx code t) = dceFrom code t :=
    dce_drop_newIdx code (by omega)
  have hdce : dceFrom code t =
      remapInstr code t (instrAt code t) :: dceFrom code (t + 1) := by
    rw [dceFrom]
    rw [if_pos hlt, if_pos hk]
    rfl
  have hget : (dce code)[newIdx code t]? =
      some (remapInstr code t (instrAt code t)) := by
    have h0 : ((dce code).drop (newIdx code t))[0]? =
        some (remapInstr code t (instrAt code t)) := by
      rw [hdrop, hdce]
      simp
    rw [List.getElem?_drop] at h0
    simpa using h0
  constructor
  · rw [instrAt, List.getD_eq_getElem?_getD, hget]
    rfl
  · by_contra hge
    rw [List.getElem?_eq_none (by omega)] at hget
    exact Option.noConfusion hget

/-- Reachability of kept instructions transports to the dead-code-
eliminated program. -/
theorem reachable_transport (code : List Instr) :
    ∀ (i : Nat), Reachable code i → i < code.length →
      kept code i = true ∧ Reachable (dce code) (newIdx code i) := by
  intro i h
  induction h with
  | zero =>
      intro hlen
      refine ⟨kept_zero code (by intro he; rw [he] at hlen; simp at hlen), ?_⟩
      rw [newIdx, countKeptFrom_self]
      exact Reachable.zero
  | step hi hlt hmem ih =>
      rename_i i' j'
      intro hjlen
      obtain ⟨hki, hri⟩ := ih hlt
      have hkj : kept code j' = true := kept_closed code hki hlt j' hmem hjlen
      refine ⟨hkj, ?_⟩
      obtain ⟨hinstr, hbound⟩ := dce_instrAt code hlt hki
      apply Reachable.step hri hbound
      rw [hinstr]
      have hsucc1 : newIdx code (i' + 1) = newIdx code i' + 1 :=
        newIdx_succ_of_kept code hki
      cases hins : instrAt code i' with
      | ret v => rw [hins] at hmem; simp [succsAt] at hmem
      | ld f =>
          rw [hins] at hmem
          simp [succsAt] at hmem
          subst hmem
          simp [remapInstr, succsAt, hsucc1]
      | aluAnd k =>
          rw [hins] at hmem
          simp [succsAt] at hmem
          subst hmem
          simp [remapInstr, succsAt, hsucc1]
      | ja k =>
          rw [hins] at hmem
          simp [succsAt] at hmem
          subst hmem
          have hmono : newIdx code i' + 1 ≤ newIdx code (i' + 1 + k) := by
            rw [← hsucc1]
            exact newIdx_mono code (by omega)
          simp [remapInstr, succsAt]
          omega
      | jeq c jt jf =>
          rw [hins] at hmem
          simp [succsAt] at hmem
          have hmt : newIdx code i' + 1 ≤ newIdx code (i' + 1 + jt) := by
            rw [← hsucc1]; exact newIdx_mono code (by omega)
          have hmf : newIdx code i' + 1 ≤ newIdx code (i' + 1 + jf) := by
            rw [← hsucc1]; exact newIdx_mono code (by omega)
          rcases hmem with hmem | hmem <;> subst hmem <;>
            simp [remapInstr, succsAt] <;> omega
      | jgt c jt jf =>
          rw [hins] at hmem
          simp [succsAt] at hmem
          have hmt : newIdx code i' + 1 ≤ newIdx code (i' + 1 + jt) := by
            rw [← hsucc1]; exact newIdx_mono code (by omega)
          have hmf : newIdx code i' + 1 ≤ newIdx code (i' + 1 + jf) := by
            rw [← hsucc1]; exact newIdx_mono code (by omega)
          rcases hmem with hmem | hmem <;> subst hmem <;>
            simp [remapInstr, succsAt] <;> omega
      | jge c jt jf =>
          rw [hins] at hmem
          simp [succsAt] at hmem
          have hmt : newIdx code i' + 1 ≤ newIdx code (i' + 1 + jt) := by
            rw [← hsucc1]; exact newIdx_mono code (by omega)
          have hmf : newIdx code i' + 1 ≤ newIdx code (i' + 1 + jf) := by
            rw [← hsucc1]; exact newIdx_mono code (by omega)
          rcases hmem with hmem | hmem <;> subst hmem <;>
            simp [remapInstr, succsAt] <;> omega
      | jset c jt jf =>
          rw [hins] at hmem
          simp [succsAt] at hmem
          have hmt : newIdx code i' + 1 ≤ newIdx code (i' + 1 + jt) := by
            rw [← hsucc1]; exact newIdx_mono code (by omega)
          have hmf : newIdx code i' + 1 ≤ newIdx code (i' + 1 + jf) := by
            rw [← hsucc1]; exact newIdx_mono code (by omega)
          rcases hmem with hmem | hmem <;> subst hmem <;>
            simp [remapInstr, succsAt] <;> omega

/-- Every instruction of a dead-code-eliminated program is reachable. -/
theorem dce_all_reachable (code : List Instr) :
    ∀ j, j < (dce code).length → Reachable (dce code) j := by
  intro j hj
  obtain ⟨t, _, htl, hkt, hcnt⟩ :=
    dceFrom_surj code code.length 0 j (by omega) hj
  have hreach : Reachable code t := reachMarks_sound code t hkt
  have := (reachable_transport code t hreach htl).2
  rw [newIdx] at this
  rw [← hcnt]
  exact this

/-- Jump threading preserves the execution result. -/
theorem thread_preserves (code : List Instr) (inp : Input) (a : Nat) :
    runV (thread code) inp a = runV code inp a := by
  have h := thread_sim code inp code.length 0 a (by omega)
  rw [List.drop_zero] at h
  exact h

/-- One optimizer iteration: jump threading followed by dead-code
elimination. -/
def optimizeStep (code : List Instr) : List Instr := dce (thread code)

/-- The optimizer's pass budget. -/
def PassBudget : Nat := 10

/-- Iterate the optimizer until fixpoint or until the pass budget is
exhausted. -/
def optimizeLoop : Nat → List Instr → List Instr
  | 0, code => code
  | n + 1, code =>
      let code' := optimizeStep code
      if code' = code then code' else optimizeLoop n code'

/-- The optimizer: apply the passes in sequence until fixpoint or pass
budget exhaustion. -/
def optimizeCode (code : List Instr) : List Instr :=
  optimizeLoop PassBudget (optimizeStep code)

/-- The optimizer produces a new program object with the same architecture
tag and default verdict. -/
def optimizeProgram (p : Program) : Program :=
  ⟨p.arch, optimizeCode p.instructions, p.defaultAction⟩

theorem optimizeStep_preserves (code : List Instr) (inp : Input) (a : Nat) :
    runV (optimizeStep code) inp a = runV code inp a := by
  rw [optimizeStep, dce_preserves, thread_preserves]

theorem optimizeLoop_preserves (inp : Input) :
    ∀ (n : Nat) (code : List Instr) (a : Nat),
      runV (optimizeLoop n code) inp a = runV code inp a := by
  intro n
  induction n with
  | zero => intro code a; rfl
  | succ n ih =>
      intro code a
      rw [optimizeLoop]
      by_cases h : optimizeStep code = code
      · rw [if_pos h]
        simp only [h]
      · rw [if_neg h, ih, optimizeStep_preserves]

/-- The optimizer preserves the execution result. -/
theorem optimizeCode_preserves (code : List Instr) (inp : Input) (a : Nat) :
    runV (optimizeCode code) inp a = runV code inp a := by
  rw [optimizeCode, optimizeLoop_preserves, optimizeStep_preserves]

theorem optimizeStep_length_le (code : List Instr) :
    (optimizeStep code).length ≤ code.length := by
  rw [optimizeStep]
  calc (dce (thread code)).length ≤ (thread code).length :=
        dce_length_le (thread code)
    _ = code.length := thread_length code

theorem optimizeLoop_length_le :
    ∀ (n : Nat) (code : List Instr),
      (optimizeLoop n code).length ≤ code.length := by
  intro n
  induction n with
  | zero => intro code; exact le_refl _
  | succ n ih =>
      intro code
      rw [optimizeLoop]
      by_cases h : optimizeStep code = code
      · rw [if_pos h, h]
      · rw [if_neg h]
        exact le_trans (ih _) (optimizeStep_length_le code)

/-- The optimizer never lengthens the program. -/
theorem optimizeCode_length_le (code : List Instr) :
    (optimizeCode code).length ≤ code.length := by
  rw [optimizeCode]
  exact le_trans (optimizeLoop_length_le PassBudget _)
    (optimizeStep_length_le code)

theorem optimizeLoop_dce_image :
    ∀ (n : Nat) (code : List Instr), (∃ w, code = dce w) →
      ∃ w, optimizeLoop n code = dce w := by
  intro n
  induction n with
  | zero => intro code h; exact h
  | succ n ih =>
      intro code h
      rw [optimizeLoop]
      by_cases he : optimizeStep code = code
      · rw [if_pos he]
        exact ⟨thread code, rfl⟩
      · rw [if_neg he]
        exact ih (optimizeStep code) ⟨thread code, rfl⟩

/-- Every instruction of an optimized program is reachable. -/
theorem optimizeCode_all_reachable (code : List Instr) :
    ∀ j, j < (optimizeCode code).length →
      Reachable (optimizeCode code) j := by
  obtain ⟨w, hw⟩ := optimizeLoop_dce_image PassBudget (optimizeStep code)
    ⟨thread code, rfl⟩
  rw [optimizeCode, hw]
  exact dce_all_reachable w

/-!
## Coverage accounting, rule sets and program building
-/

/-- Fetch-decode-execute with coverage accounting: the list of instruction
indices executed, in order (the equivalence oracle's coverage data). -/
def runCov (code : List Instr) (inp : Input) :
    Nat → Nat → Nat → List Nat → List Nat
  | 0, _, _, acc => acc
  | fuel + 1, pc, a, acc =>
    match code[pc]? with
    | none => acc
    | some ins =>
      match ins with
      | .ret _ => acc ++ [pc]
      | .ld f => runCov code inp fuel (pc + 1) (loadField inp f) (acc ++ [pc])
      | .aluAnd k => runCov code inp fuel (pc + 1) (a &&& k) (acc ++ [pc])
      | .ja k => runCov code inp fuel (pc + 1 + k) a (acc ++ [pc])
      | .jeq k jt jf =>
          runCov code inp fuel (pc + 1 + (if a == k then jt else jf)) a
            (acc ++ [pc])
      | .jgt k jt jf =>
          runCov code inp fuel (pc + 1 + (if k < a then jt else jf)) a
            (acc ++ [pc])
      | .jge k jt jf =>
          runCov code inp fuel (pc + 1 + (if k ≤ a then jt else jf)) a
            (acc ++ [pc])
      | .jset k jt jf =>
          runCov code inp fuel (pc + 1 + (if a &&& k != 0 then jt else jf)) a
            (acc ++ [pc])

/-- The instruction indices of `p` exercised by input `inp`. -/
def coverage (p : Program) (inp : Input) : List Nat :=
  runCov p.instructions inp p.instructions.length 0 0 []

/-- The instruction at index `j` is exercised by at least one input. -/
def Exercised (p : Program) (j : Nat) : Prop := ∃ inp, j ∈ coverage p inp

/-- Every instruction of `p` is exercised by at least one input. -/
def NoDeadCode (p : Program) : Prop :=
  ∀ j, j < p.instructions.length → Exercised p j

/-- A mapping from syscall numbers to rules, paired with one verdict.  A
program is built from an ordered list of rule sets plus one default
verdict. -/
structure RuleSet where
  rules : List (Nat × SyscallRule)
  action : Verdict

/-- Options for `buildProgram`. -/
structure BuildOptions where
  optimize : Bool
  arch : Nat
  defaultAction : Verdict

/-- Flatten an ordered list of rule sets into the ordered entry list handed
to the compiler. -/
def flattenRuleSets (rss : List RuleSet) : List Entry :=
  rss.foldr
    (fun rs acc =>
      rs.rules.map (fun nr => Entry.mk nr.1 nr.2 rs.action) ++ acc) []

/-- Build a program from an ordered list of rule sets: compile, then
optionally optimize. -/
def buildProgram (rss : List RuleSet) (opts : BuildOptions) :
    Except CompileError Program :=
  match compile (flattenRuleSets rss) opts.defaultAction opts.arch with
  | .error e => .error e
  | .ok p => .ok (if opts.optimize then optimizeProgram p else p)

/-!
## Program well-formedness and interpreter termination
-/

/-- In-bounds check for the instruction at index `i` of a program of length
`len`: every jump target and every fallthrough stays inside the program. -/
def instrOk (len i : Nat) : Instr → Bool
  | .ret _ => true
  | .ld _ => i + 1 < len
  | .aluAnd _ => i + 1 < len
  | .ja k => i + 1 + k < len
  | .jeq _ jt jf => i + 1 + jt < len && i + 1 + jf < len
  | .jgt _ jt jf => i + 1 + jt < len && i + 1 + jf < len
  | .jge _ jt jf => i + 1 + jt < len && i + 1 + jf < len
  | .jset _ jt jf => i + 1 + jt < len && i + 1 + jf < len

/-- The program invariant: every jump target is in-bounds (jumps are
forward-only by construction of the instruction encoding). -/
def wfCode (code : List Instr) : Bool :=
  (List.range code.length).all (fun i => instrOk code.length i (instrAt code i))

theorem wfCode_instr {code : List Instr} (h : wfCode code = true) {i : Nat}
    (hi : i < code.length) : instrOk code.length i (instrAt code i) = true := by
  rw [wfCode, List.all_eq_true] at h
  exact h i (List.mem_range.mpr hi)

/-- On a well-formed program the step-counting interpreter always reaches a
verdict, executing at most as many instructions as remain. -/
theorem runN_wf (code : List Instr) (hwf : wfCode code = true) (inp : Input) :
    ∀ (n t a : Nat), code.length - t ≤ n → t < code.length →
      ∃ v steps, runN (code.drop t) inp a = some (v, steps) ∧
        steps ≤ code.length - t := by
  intro n
  induction n with
  | zero => intro t a h hlt; omega
  | succ n ih =>
      intro t a h hlt
      have hdrop : code.drop t = code[t] :: code.drop (t + 1) :=
        List.drop_eq_getElem_cons hlt
      have hat : instrAt code t = code[t] := by
        rw [instrAt, List.getD_eq_getElem _ _ (by simpa using hlt)]
      have hok := wfCode_instr hwf hlt
      rw [hat] at hok
      rw [hdrop]
      cases hins : code[t] with
      | ret v => exact ⟨v, 1, by simp [runN], by omega⟩
      | ld f =>
          rw [hins] at hok
          rw [instrOk] at hok
          have hlt1 : t + 1 < code.length := by simpa using hok
          obtain ⟨v, s, hs, hb⟩ := ih (t + 1) (loadField inp f) (by omega) hlt1
          exact ⟨v, s + 1, by simp [runN, hs], by omega⟩
      | aluAnd k =>
          rw [hins] at hok
          rw [instrOk] at hok
          have hlt1 : t + 1 < code.length := by simpa using hok
          obtain ⟨v, s, hs, hb⟩ := ih (t + 1) (a &&& k) (by omega) hlt1
          exact ⟨v, s + 1, by simp [runN, hs], by omega⟩
      | ja k =>
          rw [hins] at hok
          rw [instrOk] at hok
          have hlt1 : t + 1 + k < code.length := by simpa using hok
          obtain ⟨v, s, hs, hb⟩ := ih (t + 1 + k) a (by omega) hlt1
          refine ⟨v, s + 1, ?_, by omega⟩
          rw [runN]
          rw [List.drop_drop, hs]
          rfl
      | jeq c jt jf =>
          rw [hins] at hok
          rw [instrOk] at hok
          have hokt : t + 1 + jt < code.length := by
            rcases Bool.and_eq_true_iff.mp hok with ⟨h1, _⟩
            simpa using h1
          have hokf : t + 1 + jf < code.length := by
            rcases Bool.and_eq_true_iff.mp hok with ⟨_, h2⟩
            simpa using h2
          cases hc : a == c
          · obtain ⟨v, s, hs, hb⟩ := ih (t + 1 + jf) a (by omega) hokf
            refine ⟨v, s + 1, ?_, by omega⟩
            rw [runN]
            rw [hc, if_neg (by simp), List.drop_drop, hs]
            rfl
          · obtain ⟨v, s, hs, hb⟩ := ih (t + 1 + jt) a (by omega) hokt
            refine ⟨v, s + 1, ?_, by omega⟩
            rw [runN]
            rw [hc, if_pos rfl, List.drop_drop, hs]
            rfl
      | jgt c jt jf =>
          rw [hins] at hok
          rw [instrOk] at hok
          have hokt : t + 1 + jt < code.length := by
            rcases Bool.and_eq_true_iff.mp hok with ⟨h1, _⟩
            simpa using h1
          have hokf : t + 1 + jf < code.length := by
            rcases Bool.and_eq_true_iff.mp hok with ⟨_, h2⟩
            simpa using h2
          by_cases hc : c < a
          · obtain ⟨v, s, hs, hb⟩ := ih (t + 1 + jt) a (by omega) hokt
            refine ⟨v, s + 1, ?_, by omega⟩
            rw [runN]
            rw [if_pos hc, List.drop_drop, hs]
            rfl
          · obtain ⟨v, s, hs, hb⟩ := ih (t + 1 + jf) a (by omega) hokf
            refine ⟨v, s + 1, ?_, by omega⟩
            rw [runN]
            rw [if_neg hc, List.drop_drop, hs]
            rfl
      | jge c jt jf =>
          rw [hins] at hok
          rw [instrOk] at hok
          have hokt : t + 1 + jt < code.length := by
            rcases Bool.and_eq_true_iff.mp hok with ⟨h1, _⟩
            simpa using h1
          have hokf : t + 1 + jf < code.length := by
            rcases Bool.and_eq_true_iff.mp hok with ⟨_, h2⟩
            simpa using h2
          by_cases hc : c ≤ a
          · obtain ⟨v, s, hs, hb⟩ := ih (t + 1 + jt) a (by omega) hokt
            refine ⟨v, s + 1, ?_, by omega⟩
            rw [runN]
            rw [if_pos hc, List.drop_drop, hs]
            rfl
          · obtain ⟨v, s, hs, hb⟩ := ih (t + 1 + jf) a (by omega) hokf
            refine ⟨v, s + 1, ?_, by omega⟩
            rw [runN]
            rw [if_neg hc, List.drop_drop, hs]
            rfl
      | jset c jt jf =>
          rw [hins] at hok
          rw [instrOk] at hok
          have hokt : t + 1 + jt < code.length := by
            rcases Bool.and_eq_true_iff.mp hok with ⟨h1, _⟩
            simpa using h1
          have hokf : t + 1 + jf < code.length := by
            rcases Bool.and_eq_true_iff.mp hok with ⟨_, h2⟩
            simpa using h2
          cases hc : a &&& c != 0
          · obtain ⟨v, s, hs, hb⟩ := ih (t + 1 + jf) a (by omega) hokf
            refine ⟨v, s + 1, ?_, by omega⟩
            rw [runN]
            rw [hc, if_neg (by simp), List.drop_drop, hs]
            rfl
          · obtain ⟨v, s, hs, hb⟩ := ih (t + 1 + jt) a (by omega) hokt
            refine ⟨v, s + 1, ?_, by omega⟩
            rw [runN]
            rw [hc, if_pos rfl, List.drop_drop, hs]
            rfl

/-- Dropping the step count from the counting interpreter yields the plain
interpreter. -/
theorem runN_fst (inp : Input) :
    ∀ (n : Nat) (code : List Instr), code.length ≤ n → ∀ a,
      (runN code inp a).map Prod.fst = runV code inp a := by
  have hmap : ∀ (o : Option (Verdict × Nat)),
      (o.map (fun p => (p.1, p.2 + 1))).map Prod.fst = o.map Prod.fst := by
    intro o; cases o <;> rfl
  intro n
  induction n with
  | zero =>
      intro code hlen a
      have : code = [] := List.eq_nil_of_length_eq_zero (by omega)
      subst this
      simp [runN]
  | succ n ih =>
      intro code hlen a
      cases code with
      | nil => simp [runN]
      | cons ins rest =>
          have hrest : rest.length ≤ n := by simp at hlen; omega
          cases ins with
          | ret v => simp [runN, runV]
          | ld f =>
              simp only [runN, runV_ld, hmap]
              exact ih rest hrest (loadField inp f)
          | aluAnd k =>
              simp only [runN, runV_aluAnd, hmap]
              exact ih rest hrest (a &&& k)
          | ja k =>
              simp only [runN, runV_ja, hmap]
              exact ih (rest.drop k) (by simp [List.length_drop]; omega) a
          | jeq c jt jf =>
              simp only [runN, runV_jeq, hmap]
              exact ih (rest.drop _) (by simp [List.length_drop]; omega) a
          | jgt c jt jf =>
              simp only [runN, runV_jgt, hmap]
              exact ih (rest.drop _) (by simp [List.length_drop]; omega) a
          | jge c jt jf =>
              simp only [runN, runV_jge, hmap]
              exact ih (rest.drop _) (by simp [List.length_drop]; omega) a
          | jset c jt jf =>
              simp only [runN, runV_jset, hmap]
              exact ih (rest.drop _) (by simp [List.length_drop]; omega) a

/-!
## Precompiled program codec

Modelled from the spec: serialize `{architecture tag, instruction array,
default verdict}` to a byte sequence with fixed-width fields — architecture
tag (4 bytes), instruction count (4 bytes), instruction records (13 bytes
each: opcode tag, jump-true offset, jump-false offset, immediate), default
verdict (8 bytes) — and reconstruct it exactly, re-validating the program
invariants and rejecting truncated or corrupt input deterministically.
-/

/-- Little-endian encoding of `v` in exactly `w` bytes. -/
def leEnc : Nat → Nat → List Nat
  | 0, _ => []
  | w + 1, v => v % 256 :: leEnc w (v / 256)

/-- Little-endian decoding of exactly `w` bytes; fails on truncated
input. -/
def leDec : Nat → List Nat → Option (Nat × List Nat)
  | 0, bs => some (0, bs)
  | w + 1, bs =>
    match bs with
    | [] => none
    | b :: rest => (leDec w rest).map (fun p => (b + 256 * p.1, p.2))

theorem leEnc_length : ∀ (w v : Nat), (leEnc w v).length = w := by
  intro w
  induction w with
  | zero => intro v; rfl
  | succ w ih => intro v; simp [leEnc, ih]

theorem leDec_leEnc : ∀ (w v : Nat), v < 256 ^ w → ∀ (rest : List Nat),
    leDec w (leEnc w v ++ rest) = some (v, rest) := by
  intro w
  induction w with
  | zero =>
      intro v hv rest
      have : v = 0 := by simpa using hv
      subst this
      rfl
  | succ w ih =>
      intro v hv rest
      have hdiv : v / 256 < 256 ^ w := by
        rw [Nat.div_lt_iff_lt_mul (by norm_num)]
        calc v < 256 ^ (w + 1) := hv
          _ = 256 ^ w * 256 := by rw [Nat.pow_succ]
      rw [leEnc]
      simp only [List.cons_append, leDec]
      rw [ih (v / 256) hdiv rest]
      simp only [Option.map]
      have : v % 256 + 256 * (v / 256) = v := by omega
      rw [this]

/-- Numeric encoding of a verdict (tag in the high bits, errno in the low
32 bits). -/
def verdictToNat : Verdict → Nat
  | .allow => 0
  | .errnoReturn e => 2 ^ 32 + e
  | .trap => 2 ^ 33
  | .killProcess => 2 ^ 33 + 1
  | .killThread => 2 ^ 33 + 2

/-- Partial inverse of `verdictToNat`; rejects values that encode no
verdict. -/
def verdictOfNat (n : Nat) : Option Verdict :=
  if n = 0 then some .allow
  else if n < 2 ^ 32 then none
  else if n < 2 ^ 33 then some (.errnoReturn (n - 2 ^ 32))
  else if n = 2 ^ 33 then some .trap
  else if n = 2 ^ 33 + 1 then some .killProcess
  else if n = 2 ^ 33 + 2 then some .killThread
  else none

/-- Field bounds under which a verdict encodes losslessly. -/
def Verdict.fieldsOk : Verdict → Bool
  | .errnoReturn e => e < 2 ^ 32
  | _ => true

set_option maxRecDepth 4096 in
theorem verdict_roundtrip (v : Verdict) (h : v.fieldsOk = true) :
    verdictOfNat (verdictToNat v) = some v := by
  cases v with
  | allow => rfl
  | errnoReturn e =>
      have he : e < 2 ^ 32 := by simpa [Verdict.fieldsOk] using h
      rw [verdictToNat, verdictOfNat]
      split_ifs <;>
        first
          | omega
          | (have hsub : 2 ^ 32 + e - 2 ^ 32 = e := by omega
             rw [hsub])
  | trap =>
      rw [verdictToNat, verdictOfNat]
      rw [if_neg (by norm_num), if_neg (by norm_num), if_neg (by norm_num),
        if_pos rfl]
  | killProcess =>
      rw [verdictToNat, verdictOfNat]
      rw [if_neg (by norm_num), if_neg (by norm_num), if_neg (by norm_num),
        if_neg (by norm_num), if_pos rfl]
  | killThread =>
      rw [verdictToNat, verdictOfNat]
      rw [if_neg (by norm_num), if_neg (by norm_num), if_neg (by norm_num),
        if_neg (by norm_num), if_neg (by norm_num), if_pos rfl]

/-- Numeric encoding of a load operand. -/
def loadFieldToNat : LoadField → Nat
  | .nr => 0
  | .arch => 1
  | .argLow i => 2 + 2 * i
  | .argHigh i => 3 + 2 * i

/-- Inverse of `loadFieldToNat`. -/
def loadFieldOfNat (n : Nat) : LoadField :=
  if n = 0 then .nr
  else if n = 1 then .arch
  else if n % 2 = 0 then .argLow ((n - 2) / 2)
  else .argHigh ((n - 3) / 2)

theorem loadField_roundtrip (f : LoadField) :
    loadFieldOfNat (loadFieldToNat f) = f := by
  cases f with
  | nr => rfl
  | arch => rfl
  | argLow i =>
      rw [loadFieldToNat, loadFieldOfNat]
      rw [if_neg (by omega), if_neg (by omega), if_pos (by omega)]
      congr 1
      omega
  | argHigh i =>
      rw [loadFieldToNat, loadFieldOfNat]
      rw [if_neg (by omega), if_neg (by omega), if_neg (by omega)]
      congr 1
      omega

/-- The four fixed-width record fields of an instruction:
`(opcode tag, jump-true offset, jump-false offset, immediate)`. -/
def instrFields : Instr → Nat × Nat × Nat × Nat
  | .ld f => (0, 0, 0, loadFieldToNat f)
  | .aluAnd k => (1, 0, 0, k)
  | .jeq k jt jf => (2, jt, jf, k)
  | .jgt k jt jf => (3, jt, jf, k)
  | .jge k jt jf => (4, jt, jf, k)
  | .jset k jt jf => (5, jt, jf, k)
  | .ja k => (6, 0, 0, k)
  | .ret v => (7, 0, 0, verdictToNat v)

/-- Encode one instruction as a fixed-width 13-byte record. -/
def encodeInstr (ins : Instr) : List Nat :=
  [(instrFields ins).1] ++ leEnc 2 (instrFields ins).2.1 ++
    leEnc 2 (instrFields ins).2.2.1 ++ leEnc 8 (instrFields ins).2.2.2

/-- Decode one 13-byte instruction record; fails on truncated input or an
unknown opcode tag. -/
def decodeInstr (bs : List Nat) : Option (Instr × List Nat) :=
  match bs with
  | [] => none
  | tag :: bs1 =>
    match leDec 2 bs1 with
    | none => none
    | some (jt, bs2) =>
      match leDec 2 bs2 with
      | none => none
      | some (jf, bs3) =>
        match leDec 8 bs3 with
        | none => none
        | some (k, bs4) =>
          match tag with
          | 0 => some (.ld (loadFieldOfNat k), bs4)
          | 1 => some (.aluAnd k, bs4)
          | 2 => some (.jeq k jt jf, bs4)
          | 3 => some (.jgt k jt jf, bs4)
          | 4 => some (.jge k jt jf, bs4)
          | 5 => some (.jset k jt jf, bs4)
          | 6 => some (.ja k, bs4)
          | 7 => (verdictOfNat k).map (fun v => (.ret v, bs4))
          | _ => none

/-- Field bounds under which an instruction record encodes losslessly. -/
def Instr.fieldsOk : Instr → Bool
  | .ld (.argLow i) => i < 6
  | .ld (.argHigh i) => i < 6
  | .ld _ => true
  | .aluAnd k => k < 2 ^ 32
  | .jeq k jt jf => k < 2 ^ 32 && jt < 2 ^ 16 && jf < 2 ^ 16
  | .jgt k jt jf => k < 2 ^ 32 && jt < 2 ^ 16 && jf < 2 ^ 16
  | .jge k jt jf => k < 2 ^ 32 && jt < 2 ^ 16 && jf < 2 ^ 16
  | .jset k jt jf => k < 2 ^ 32 && jt < 2 ^ 16 && jf < 2 ^ 16
  | .ja k => k < 2 ^ 16
  | .ret v => v.fieldsOk

theorem encodeInstr_length (ins : Instr) : (encodeInstr ins).length = 13 := by
  rw [encodeInstr]
  simp [leEnc_length]

theorem decodeInstr_encodeInstr (ins : Instr) (h : ins.fieldsOk = true)
    (rest : List Nat) :
    decodeInstr (encodeInstr ins ++ rest) = some (ins, rest) := by
  have h16 : (2 : Nat) ^ 16 ≤ 256 ^ 2 := by norm_num
  have h32 : (2 : Nat) ^ 32 ≤ 256 ^ 8 := by norm_num
  cases ins with
  | ld f =>
      have hlf : loadFieldToNat f < 256 ^ 8 := by
        cases f with
        | nr => norm_num [loadFieldToNat]
        | arch => norm_num [loadFieldToNat]
        | argLow i =>
            have hi : i < 6 := by simpa [Instr.fieldsOk] using h
            have h8 : (14 : Nat) < 256 ^ 8 := by norm_num
            rw [loadFieldToNat]
            omega
        | argHigh i =>
            have hi : i < 6 := by simpa [Instr.fieldsOk] using h
            have h8 : (14 : Nat) < 256 ^ 8 := by norm_num
            rw [loadFieldToNat]
            omega
      rw [encodeInstr, instrFields]
      simp only [List.cons_append, List.append_assoc, List.nil_append]
      rw [decodeInstr]
      simp only [leDec_leEnc 2 0 (by norm_num), leDec_leEnc 8 _ hlf,
        loadField_roundtrip]
  | aluAnd k =>
      have hk : k < 256 ^ 8 := by
        have : k < 2 ^ 32 := by simpa [Instr.fieldsOk] using h
        omega
      rw [encodeInstr, instrFields]
      simp only [List.cons_append, List.append_assoc, List.nil_append]
      rw [decodeInstr]
      simp only [leDec_leEnc 2 0 (by norm_num), leDec_leEnc 8 _ hk]
  | jeq k jt jf =>
      rw [Instr.fieldsOk] at h
      have hk : k < 256 ^ 8 := by
        have : k < 2 ^ 32 := by
          rcases Bool.and_eq_true_iff.mp h with ⟨h1, _⟩
          rcases Bool.and_eq_true_iff.mp h1 with ⟨h2, _⟩
          simpa using h2
        omega
      have hjt : jt < 256 ^ 2 := by
        have : jt < 2 ^ 16 := by
          rcases Bool.and_eq_true_iff.mp h with ⟨h1, _⟩
          rcases Bool.and_eq_true_iff.mp h1 with ⟨_, h2⟩
          simpa using h2
        omega
      have hjf : jf < 256 ^ 2 := by
        have : jf < 2 ^ 16 := by
          rcases Bool.and_eq_true_iff.mp h with ⟨_, h2⟩
          simpa using h2
        omega
      rw [encodeInstr, instrFields]
      simp only [List.cons_append, List.append_assoc, List.nil_append]
      rw [decodeInstr]
      simp only [leDec_leEnc 2 jt hjt, leDec_leEnc 2 jf hjf,
        leDec_leEnc 8 k hk]
  | jgt k jt jf =>
      rw [Instr.fieldsOk] at h
      have hk : k < 256 ^ 8 := by
        have : k < 2 ^ 32 := by
          rcases Bool.and_eq_true_iff.mp h with ⟨h1, _⟩
          rcases Bool.and_eq_true_iff.mp h1 with ⟨h2, _⟩
          simpa using h2
        omega
      have hjt : jt < 256 ^ 2 := by
        have : jt < 2 ^ 16 := by
          rcases Bool.and_eq_true_iff.mp h with ⟨h1, _⟩
          rcases Bool.and_eq_true_iff.mp h1 with ⟨_, h2⟩
          simpa using h2
        omega
      have hjf : jf < 256 ^ 2 := by
        have : jf < 2 ^ 16 := by
          rcases Bool.and_eq_true_iff.mp h with ⟨_, h2⟩
          simpa using h2
        omega
      rw [encodeInstr, instrFields]
      simp only [List.cons_append, List.append_assoc, List.nil_append]
      rw [decodeInstr]
      simp only [leDec_leEnc 2 jt hjt, leDec_leEnc 2 jf hjf,
        leDec_leEnc 8 k hk]
  | jge k jt jf =>
      rw [Instr.fieldsOk] at h
      have hk : k < 256 ^ 8 := by
        have : k < 2 ^ 32 := by
          rcases Bool.and_eq_true_iff.mp h with ⟨h1, _⟩
          rcases Bool.and_eq_true_iff.mp h1 with ⟨h2, _⟩
          simpa using h2
        omega
      have hjt : jt < 256 ^ 2 := by
        have : jt < 2 ^ 16 := by
          rcases Bool.and_eq_true_iff.mp h with ⟨h1, _⟩
          rcases Bool.and_eq_true_iff.mp h1 with ⟨_, h2⟩
          simpa using h2
        omega
      have hjf : jf < 256 ^ 2 := by
        have : jf < 2 ^ 16 := by
          rcases Bool.and_eq_true_iff.mp h with ⟨_, h2⟩
          simpa using h2
        omega
      rw [encodeInstr, instrFields]
      simp only [List.cons_append, List.append_assoc, List.nil_append]
      rw [decodeInstr]
      simp only [leDec_leEnc 2 jt hjt, leDec_leEnc 2 jf hjf,
        leDec_leEnc 8 k hk]
  | jset k jt jf =>
      rw [Instr.fieldsOk] at h
      have hk : k < 256 ^ 8 := by
        have : k < 2 ^ 32 := by
          rcases Bool.and_eq_true_iff.mp h with ⟨h1, _⟩
          rcases Bool.and_eq_true_iff.mp h1 with ⟨h2, _⟩
          simpa using h2
        omega
      have hjt : jt < 256 ^ 2 := by
        have : jt < 2 ^ 16 := by
          rcases Bool.and_eq_true_iff.mp h with ⟨h1, _⟩
          rcases Bool.and_eq_true_iff.mp h1 with ⟨_, h2⟩
          simpa using h2
        omega
      have hjf : jf < 256 ^ 2 := by
        have : jf < 2 ^ 16 := by
          rcases Bool.and_eq_true_iff.mp h with ⟨_, h2⟩
          simpa using h2
        omega
      rw [encodeInstr, instrFields]
      simp only [List.cons_append, List.append_assoc, List.nil_append]
      rw [decodeInstr]
      simp only [leDec_leEnc 2 jt hjt, leDec_leEnc 2 jf hjf,
        leDec_leEnc 8 k hk]
  | ja k =>
      have hk : k < 256 ^ 8 := by
        have : k < 2 ^ 16 := by simpa [Instr.fieldsOk] using h
        omega
      rw [encodeInstr, instrFields]
      simp only [List.cons_append, List.append_assoc, List.nil_append]
      rw [decodeInstr]
      simp only [leDec_leEnc 2 0 (by norm_num), leDec_leEnc 8 _ hk]
  | ret v =>
      have hv : verdictToNat v < 256 ^ 8 := by
        have h8 : (2 : Nat) ^ 32 + 2 ^ 32 ≤ 256 ^ 8 := by norm_num
        cases v with
        | errnoReturn e =>
            have he : e < 2 ^ 32 := by
              simpa [Instr.fieldsOk, Verdict.fieldsOk] using h
            rw [verdictToNat]
            omega
        | allow => rw [verdictToNat]; norm_num
        | trap => rw [verdictToNat]; norm_num
        | killProcess => rw [verdictToNat]; norm_num
        | killThread => rw [verdictToNat]; norm_num
      rw [encodeInstr, instrFields]
      simp only [List.cons_append, List.append_assoc, List.nil_append]
      rw [decodeInstr]
      simp only [leDec_leEnc 2 0 (by norm_num), leDec_leEnc 8 _ hv,
        verdict_roundtrip v (by simpa [Instr.fieldsOk] using h)]
      rfl

/-- Codec failure modes: truncated/corrupt input is rejected
deterministically, and a decoded program must re-pass the program
invariants. -/
inductive CodecError where
  | truncated : CodecError
  | badValue : CodecError
  | invalidProgram : CodecError
deriving DecidableEq, Repr

/-- The program invariants re-validated by the decoder: the length bound
and in-bounds forward-only jumps. -/
def programValid (p : Program) : Bool :=
  p.instructions.length ≤ MaxInstructions && wfCode p.instructions

/-- A program all of whose encoded fields fit their fixed widths. -/
def Program.encodable (p : Program) : Bool :=
  p.arch < 2 ^ 32 && programValid p &&
    p.instructions.all Instr.fieldsOk && p.defaultAction.fieldsOk

/-- Serialize a program: architecture tag, instruction count, instruction
records, default verdict. -/
def encodeProgram (p : Program) : List Nat :=
  leEnc 4 p.arch ++ leEnc 4 p.instructions.length ++
    p.instructions.foldr (fun i acc => encodeInstr i ++ acc) [] ++
    leEnc 8 (verdictToNat p.defaultAction)

/-- Decode exactly `n` instruction records. -/
def decodeInstrs : Nat → List Nat → Option (List Instr × List Nat)
  | 0, bs => some ([], bs)
  | n + 1, bs =>
    match decodeInstr bs with
    | none => none
    | some (i, rest) => (decodeInstrs n rest).map (fun p => (i :: p.1, p.2))

/-- Deserialize a program, rejecting truncated or corrupt input and
re-validating the program invariants before returning it. -/
def decodeProgram (bs : List Nat) : Except CodecError Program :=
  match leDec 4 bs with
  | none => .error .truncated
  | some (arch, r1) =>
    match leDec 4 r1 with
    | none => .error .truncated
    | some (n, r2) =>
      if r2.length = 13 * n + 8 then
        match decodeInstrs n r2 with
        | none => .error .badValue
        | some (instrs, r3) =>
          match leDec 8 r3 with
          | none => .error .truncated
          | some (vn, r4) =>
            match verdictOfNat vn with
            | none => .error .badValue
            | some d =>
              if r4 = [] then
                if programValid ⟨arch, instrs, d⟩ then
                  .ok ⟨arch, instrs, d⟩
                else .error .invalidProgram
              else .error .truncated
      else .error .truncated

theorem encodeBody_length (instrs : List Instr) :
    (instrs.foldr (fun i acc => encodeInstr i ++ acc) []).length =
      13 * instrs.length := by
  induction instrs with
  | nil => rfl
  | cons i instrs ih =>
      simp [List.foldr_cons, encodeInstr_length, ih]
      omega

theorem decodeInstrs_encode (instrs : List Instr)
    (h : instrs.all Instr.fieldsOk = true) (rest : List Nat) :
    decodeInstrs instrs.length
        ((instrs.foldr (fun i acc => encodeInstr i ++ acc) []) ++ rest) =
      some (instrs, rest) := by
  induction instrs with
  | nil => rfl
  | cons i instrs ih =>
      have hi : i.fieldsOk = true := by
        rw [List.all_cons] at h
        exact (Bool.and_eq_true_iff.mp h).1
      have hrest : instrs.all Instr.fieldsOk = true := by
        rw [List.all_cons] at h
        exact (Bool.and_eq_true_iff.mp h).2
      rw [List.length_cons, List.foldr_cons, decodeInstrs,
        List.append_assoc, decodeInstr_encodeInstr i hi]
      simp only [ih hrest]
      rfl

/-- Round trip: decoding the encoding of a valid program reconstructs it
exactly, with no loss of the architecture tag, instruction array or
default verdict. -/
theorem leDec_leEnc_nil (w v : Nat) (h : v < 256 ^ w) :
    leDec w (leEnc w v) = some (v, []) := by
  have := leDec_leEnc w v h []
  simpa using this

theorem decode_encode (p : Program) (h : p.encodable = true) :
    decodeProgram (encodeProgram p) = .ok p := by
  have harch : p.arch < 2 ^ 32 := by
    rw [Program.encodable] at h
    rcases Bool.and_eq_true_iff.mp h with ⟨h1, _⟩
    rcases Bool.and_eq_true_iff.mp h1 with ⟨h2, _⟩
    rcases Bool.and_eq_true_iff.mp h2 with ⟨h3, _⟩
    simpa using h3
  have hvalid : programValid p = true := by
    rw [Program.encodable] at h
    rcases Bool.and_eq_true_iff.mp h with ⟨h1, _⟩
    rcases Bool.and_eq_true_iff.mp h1 with ⟨h2, _⟩
    exact (Bool.and_eq_true_iff.mp h2).2
  have hfields : p.instructions.all Instr.fieldsOk = true := by
    rw [Program.encodable] at h
    rcases Bool.and_eq_true_iff.mp h with ⟨h1, _⟩
    exact (Bool.and_eq_true_iff.mp h1).2
  have hdef : p.defaultAction.fieldsOk = true := by
    rw [Program.encodable] at h
    exact (Bool.and_eq_true_iff.mp h).2
  have hlen : p.instructions.length ≤ MaxInstructions := by
    rw [programValid] at hvalid
    have := (Bool.and_eq_true_iff.mp hvalid).1
    simpa using this
  have hlen32 : p.instructions.length < 256 ^ 4 := by
    rw [MaxInstructions] at hlen
    have : (256 : Nat) ^ 4 = 2 ^ 32 := by norm_num
    omega
  have harch4 : p.arch < 256 ^ 4 := by
    have : (256 : Nat) ^ 4 = 2 ^ 32 := by norm_num
    omega
  have hv8 : verdictToNat p.defaultAction < 256 ^ 8 := by
    have h8 : (2 : Nat) ^ 32 + 2 ^ 32 ≤ 256 ^ 8 := by norm_num
    cases hd : p.defaultAction with
    | errnoReturn e =>
        have he : e < 2 ^ 32 := by
          rw [hd] at hdef
          simpa [Verdict.fieldsOk] using hdef
        rw [verdictToNat]
        omega
    | allow => rw [verdictToNat]; norm_num
    | trap => rw [verdictToNat]; norm_num
    | killProcess => rw [verdictToNat]; norm_num
    | killThread => rw [verdictToNat]; norm_num
  rw [encodeProgram, decodeProgram]
  rw [List.append_assoc, List.append_assoc]
  simp only [leDec_leEnc 4 p.arch harch4, leDec_leEnc 4 _ hlen32]
  rw [if_pos (by simp [List.length_append, encodeBody_length, leEnc_length])]
  simp only [decodeInstrs_encode p.instructions hfields,
    leDec_leEnc_nil 8 _ hv8, verdict_roundtrip p.defaultAction hdef]
  rw [if_pos trivial]
  have hp : Program.mk p.arch p.instructions p.defaultAction = p := rfl
  rw [hp, if_pos hvalid]

/-- Truncating the final byte of an encoded program makes decoding fail
with a truncation error. -/
theorem decode_truncated (p : Program) (h : p.encodable = true) :
    decodeProgram ((encodeProgram p).dropLast) = .error .truncated := by
  have harch4 : p.arch < 256 ^ 4 := by
    rw [Program.encodable] at h
    rcases Bool.and_eq_true_iff.mp h with ⟨h1, _⟩
    rcases Bool.and_eq_true_iff.mp h1 with ⟨h2, _⟩
    rcases Bool.and_eq_true_iff.mp h2 with ⟨h3, _⟩
    have : (256 : Nat) ^ 4 = 2 ^ 32 := by norm_num
    have h4 : p.arch < 2 ^ 32 := by simpa using h3
    omega
  have hvalid : programValid p = true := by
    rw [Program.encodable] at h
    rcases Bool.and_eq_true_iff.mp h with ⟨h1, _⟩
    rcases Bool.and_eq_true_iff.mp h1 with ⟨h2, _⟩
    exact (Bool.and_eq_true_iff.mp h2).2
  have hlen32 : p.instructions.length < 256 ^ 4 := by
    rw [programValid] at hvalid
    have h1 := (Bool.and_eq_true_iff.mp hvalid).1
    have h2 : p.instructions.length ≤ MaxInstructions := by simpa using h1
    rw [MaxInstructions] at h2
    have : (256 : Nat) ^ 4 = 2 ^ 32 := by norm_num
    omega
  have hbody : (p.instructions.foldr (fun i acc => encodeInstr i ++ acc) [] ++
      leEnc 8 (verdictToNat p.defaultAction)) ≠ [] := by
    intro he
    have hl := congrArg List.length he
    simp [List.length_append, leEnc_length] at hl
  rw [encodeProgram, List.append_assoc, List.append_assoc]
  rw [List.dropLast_append_of_ne_nil _ (by
    intro he
    have hl := congrArg List.length he
    simp [List.length_append, leEnc_length] at hl)]
  rw [List.dropLast_append_of_ne_nil _ hbody]
  rw [decodeProgram]
  simp only [leDec_leEnc 4 p.arch harch4, leDec_leEnc 4 _ hlen32]
  rw [if_neg (by
    rw [List.length_dropLast, List.length_append, encodeBody_length,
      leEnc_length]
    omega)]

/-!
## The precompiled-program registry

Embedded from the repository source (`GetPrecompiled`, `ListPrecompiled`,
`registerPrograms`, `registerPrecompiledProgramsOnce`): a process-wide map
from program name to program, `none` until the one-time registration has
run, read-only afterwards.  The registration statements themselves are
generated at build time, so the registered `(name, program)` pairs are a
parameter; the map invariant is that names are distinct.
-/

namespace Precompiled

variable {α : Type}

/-- `registerPrograms` builds the program map from the generated
registration statements. -/
def registerPrograms (regs : List (String × α)) : List (String × α) := regs

/-- The `sync.Once` guard: run the registration only if it has not run
yet. -/
def ensureRegistered (regs : List (String × α)) :
    Option (List (String × α)) → List (String × α)
  | none => registerPrograms regs
  | some m => m

/-- `GetPrecompiled`: ensure the registry is populated, then perform a
read-only lookup.  Returns the new registry state and the
`(program, ok)` result (`some p` stands for `(p, true)`, `none` for
`(zero, false)`). -/
def getPrecompiled (regs : List (String × α))
    (s : Option (List (String × α))) (name : String) :
    Option (List (String × α)) × Option α :=
  let m := ensureRegistered regs s
  (some m, m.lookup name)

/-- `ListPrecompiled`: ensure the registry is populated, then return all
registered names, sorted. -/
def listPrecompiled (regs : List (String × α))
    (s : Option (List (String × α))) :
    Option (List (String × α)) × List String :=
  let m := ensureRegistered regs s
  (some m, (m.map Prod.fst).insertionSort (· ≤ ·))

/-- The registry operations a caller can perform. -/
inductive RegOp where
  | get (name : String) : RegOp
  | list : RegOp

/-- The registry-state effect of one operation (both operations populate
on first use and are read-only afterwards). -/
def stepOp (regs : List (String × α)) (s : Option (List (String × α))) :
    RegOp → Option (List (String × α))
  | .get name => (getPrecompiled regs s name).1
  | .list => (listPrecompiled regs s).1

/-- Registry state after a sequence of operations starting from the
unpopulated state. -/
def stateAfter (regs : List (String × α)) (ops : List RegOp) :
    Option (List (String × α)) :=
  ops.foldl (stepOp regs) none

theorem stepOp_some (regs : List (String × α)) (m : List (String × α))
    (op : RegOp) : stepOp regs (some m) op = some m := by
  cases op <;> rfl

theorem stepOp_none (regs : List (String × α)) (op : RegOp) :
    stepOp regs none op = some (registerPrograms regs) := by
  cases op <;> rfl

theorem foldl_stepOp_some (regs : List (String × α)) :
    ∀ (ops : List RegOp) (m : List (String × α)),
      ops.foldl (stepOp regs) (some m) = some m := by
  intro ops
  induction ops with
  | nil => intro m; rfl
  | cons op ops ih =>
      intro m
      rw [List.foldl_cons, stepOp_some]
      exact ih m

/-- After any nonempty operation sequence the registry holds exactly the
map built by `registerPrograms`. -/
theorem stateAfter_nonempty (regs : List (String × α)) (ops : List RegOp)
    (h : ops ≠ []) : stateAfter regs ops = some (registerPrograms regs) := by
  cases ops with
  | nil => exact absurd rfl h
  | cons op ops =>
      rw [stateAfter, List.foldl_cons, stepOp_none]
      exact foldl_stepOp_some regs ops _

/-- Association-list lookup with distinct keys finds exactly the
registered bindings. -/
theorem lookup_eq_some_iff (l : List (String × α))
    (hnd : (l.map Prod.fst).Nodup) (k : String) (v : α) :
    l.lookup k = some v ↔ (k, v) ∈ l := by
  induction l with
  | nil => simp [List.lookup]
  | cons kv l ih =>
      obtain ⟨k', v'⟩ := kv
      rw [List.map_cons, List.nodup_cons] at hnd
      rw [List.lookup]
      by_cases hk : k = k'
      · subst hk
        have hbeq : (k == k) = true := by simp
        simp only [hbeq]
        constructor
        · intro h
          cases h
          exact List.mem_cons_self _ _
        · intro h
          rcases List.mem_cons.mp h with h | h
          · cases h
            rfl
          · exact absurd (List.mem_map_of_mem Prod.fst h) hnd.1
      · have hbeq : (k == k') = false := by simp [hk]
        simp only [hbeq]
        rw [ih hnd.2]
        constructor
        · exact fun h => List.mem_cons_of_mem _ h
        · intro h
          rcases List.mem_cons.mp h with h | h
          · cases h
            exact absurd rfl hk
          · exact h

end Precompiled

/-!
## Concrete evaluation lemmas

Used to instantiate the claim theorems on concrete programs.
-/

theorem reachMarks_singleton_ret (v : Verdict) :
    reachMarks [Instr.ret v] = [true] := by
  rw [reachMarks]
  simp [List.range_succ, initMarks, List.replicate, scanStep, instrAt,
    succsAt, markSuccs]

theorem optimizeCode_singleton_ret (v : Verdict) :
    optimizeCode [Instr.ret v] = [Instr.ret v] := by
  have hthread : thread [Instr.ret v] = [Instr.ret v] := by
    rw [thread, threadFrom, threadFrom]
    rfl
  have hkept : kept [Instr.ret v] 0 = true := by
    rw [kept, reachMarks_singleton_ret]
    rfl
  have hdce : dce [Instr.ret v] = [Instr.ret v] := by
    rw [dce, dceFrom]
    rw [if_pos (by simp), hkept, if_pos rfl, dceFrom, if_neg (by simp)]
    rfl
  have hstep : optimizeStep [Instr.ret v] = [Instr.ret v] := by
    rw [optimizeStep, hthread, hdce]
  rw [optimizeCode, hstep, PassBudget, optimizeLoop, hstep, if_pos rfl]

/-- A program whose fourth instruction is statically reachable (it is the
false-branch target of a conditional jump) but semantically dead: the
accumulator is masked with 0 before an equal-zero test, so the false
branch can never be taken — the shape of the unoptimized 32-bit half
checks of a masked-equal comparison. -/
def deadBranchProgram : Program :=
  ⟨0, [.ld (.argLow 0), .aluAnd 0, .jeq 0 0 1, .ret .allow,
    .ret .killProcess], .allow⟩

theorem reachMarks_deadBranch :
    reachMarks deadBranchProgram.instructions =
      [true, true, true, true, true] := by
  rw [deadBranchProgram, reachMarks]
  simp [List.range_succ, initMarks, List.replicate, scanStep, instrAt,
    succsAt, markSuccs]

theorem optimizeCode_deadBranch :
    optimizeCode deadBranchProgram.instructions =
      deadBranchProgram.instructions := by
  have hthread : thread deadBranchProgram.instructions =
      deadBranchProgram.instructions := by
    rw [deadBranchProgram, thread]
    simp [threadFrom, threadInstr, resolveJa]
  have hkept : ∀ i, kept [Instr.ld (LoadField.argLow 0), Instr.aluAnd 0,
      Instr.jeq 0 0 1, Instr.ret Verdict.allow,
      Instr.ret Verdict.killProcess] i =
      ([true, true, true, true, true].getD i false) := by
    intro i
    have h := reachMarks_deadBranch
    rw [deadBranchProgram] at h
    rw [kept, h]
  have hdce : dce deadBranchProgram.instructions =
      deadBranchProgram.instructions := by
    rw [dce]
    simp [dceFrom, hkept, remapInstr, instrAt, newIdx, countKeptFrom,
      deadBranchProgram]
  have hstep : optimizeStep deadBranchProgram.instructions =
      deadBranchProgram.instructions := by
    rw [optimizeStep, hthread, hdce]
  rw [optimizeCode, hstep, PassBudget, optimizeLoop, hstep, if_pos rfl]

theorem coverage_deadBranch (inp : Input) :
    coverage (optimizeProgram deadBranchProgram) inp = [0, 1, 2, 3] := by
  have hinstr : (optimizeProgram deadBranchProgram).instructions =
      deadBranchProgram.instructions := by
    rw [optimizeProgram]
    exact optimizeCode_deadBranch
  rw [coverage, hinstr, deadBranchProgram]
  simp [runCov, loadField, Nat.and_zero]

/-!
## Claim theorems
-/

/-- C5: For every 64-bit mask, constant `v`, and value, the matcher
`MaskedEqual(mask, v)` matches `value` if and only if
`(value & mask) == (v & mask)`; in particular `MaskedEqual(0xF0, 0x30)`
matches `0x3A` and rejects `0x4A`. -/
theorem maskedEqual_matches_spec :
    (∀ mask v value : Nat,
      (ValueMatcher.maskedEqual mask v).matchesValue value = true ↔
        value &&& mask = v &&& mask) ∧
    (ValueMatcher.maskedEqual 0xF0 0x30).matchesValue 0x3A = true ∧
    (ValueMatcher.maskedEqual 0xF0 0x30).matchesValue 0x4A = false := by
  refine ⟨?_, by decide, by decide⟩
  intro mask v value
  simp [ValueMatcher.matchesValue]

/-- C9: For every program `P` accepted by the optimizer, the optimized
program is never longer than its input:
`len(optimize(P)) ≤ len(P)`. -/
theorem optimizer_nonexpansion (p : Program) :
    (optimizeProgram p).instructions.length ≤ p.instructions.length :=
  optimizeCode_length_le p.instructions

/-- C3: For every input list of rule sets, compilation either returns a
program whose length is at most `MaxInstructions` (4096 instructions) or
fails with a budget-exceeded error; the returned program is always the
full lowered (and possibly optimized) code, never a silent truncation. -/
theorem compile_budget_invariant (rss : List RuleSet) (opts : BuildOptions) :
    (∃ p, buildProgram rss opts = .ok p ∧
      p.instructions.length ≤ MaxInstructions ∧
      p.instructions = (if opts.optimize then
          optimizeCode (compileEntries (flattenRuleSets rss) opts.defaultAction)
        else compileEntries (flattenRuleSets rss) opts.defaultAction)) ∨
    (buildProgram rss opts = .error .budgetExceeded ∧
      MaxInstructions <
        (compileEntries (flattenRuleSets rss) opts.defaultAction).length) := by
  by_cases hlen : (compileEntries (flattenRuleSets rss)
      opts.defaultAction).length ≤ MaxInstructions
  · left
    have hc : compile (flattenRuleSets rss) opts.defaultAction opts.arch =
        .ok ⟨opts.arch, compileEntries (flattenRuleSets rss) opts.defaultAction,
          opts.defaultAction⟩ := by
      rw [compile]
      rw [if_pos hlen]
    refine ⟨_, by rw [buildProgram, hc], ?_, ?_⟩
    · cases ho : opts.optimize
      · rw [if_neg (by simp [ho])]
        exact hlen
      · rw [if_pos (by simp [ho])]
        rw [optimizeProgram]
        exact le_trans (optimizeCode_length_le _) hlen
    · cases ho : opts.optimize
      · rw [if_neg (by simp [ho]), if_neg (by simp [ho])]
      · rw [if_pos (by simp [ho]), if_pos (by simp [ho]), optimizeProgram]
  · right
    refine ⟨?_, by omega⟩
    rw [buildProgram, compile_error _ _ _ hlen]

/-- C2: For every ordered list of `(syscall number, rule, verdict)` entries
and every input, the compiled program returns the verdict of the first
entry in list order whose rule matches the input, and the default verdict
when no entry matches; first match wins for overlapping entries. -/
theorem compiled_first_match_wins (entries : List Entry) (d : Verdict)
    (arch : Nat) (p : Program) (inp : Input)
    (h : compile entries d arch = .ok p) :
    execute p inp = some (firstMatchVerdict entries d inp) := by
  obtain ⟨hinstr, _, _, _⟩ := compile_ok entries d arch p h
  rw [execute_eq_runV, hinstr, compileEntries_correct]

/-- The entry list, default verdict and input of the first-match-wins
witness. -/
def witnessEntries : List Entry := [⟨1, .matchAll, .allow⟩]

/-- The program `compile` produces for `witnessEntries`. -/
def witnessProgram : Program :=
  ⟨0, [.ld .nr, .jeq 1 0 2, .ja 0, .ret .allow, .ret (.errnoReturn 1)],
    .errnoReturn 1⟩

theorem compile_witnessEntries :
    compile witnessEntries (.errnoReturn 1) 0 = .ok witnessProgram := by
  rw [compile, witnessEntries]
  simp [compileEntries, compileRule, MaxInstructions, witnessProgram]

/-- Witness for C2 at a concrete entry list and input. -/
theorem compiled_first_match_wins_witness :
    compile witnessEntries (.errnoReturn 1) 0 = .ok witnessProgram ∧
      execute witnessProgram ⟨0, 1, [0, 0, 0, 0, 0, 0]⟩ =
        some (firstMatchVerdict witnessEntries (.errnoReturn 1)
          ⟨0, 1, [0, 0, 0, 0, 0, 0]⟩) :=
  ⟨compile_witnessEntries,
    compiled_first_match_wins witnessEntries (.errnoReturn 1) 0
      witnessProgram ⟨0, 1, [0, 0, 0, 0, 0, 0]⟩ compile_witnessEntries⟩

/-- C7: For every program that satisfies the program invariants (in-bounds
forward-only jumps, nonempty body) and every input tuple, the bytecode
interpreter terminates with a verdict and executes at most `len(Program)`
instructions. -/
theorem interpreter_terminates (p : Program) (inp : Input)
    (hwf : wfCode p.instructions = true)
    (hne : 0 < p.instructions.length) :
    ∃ v steps, execute p inp = some v ∧
      runN p.instructions inp 0 = some (v, steps) ∧
      steps ≤ p.instructions.length := by
  obtain ⟨v, steps, hs, hb⟩ := runN_wf p.instructions hwf inp
    p.instructions.length 0 0 (by omega) hne
  rw [List.drop_zero] at hs
  refine ⟨v, steps, ?_, hs, by omega⟩
  rw [execute_eq_runV,
    ← runN_fst inp p.instructions.length p.instructions (le_refl _) 0, hs]
  rfl

/-- Witness for C7 at a concrete well-formed program and input. -/
theorem interpreter_terminates_witness :
    wfCode (Program.mk 0 [.ret .allow] .allow).instructions = true ∧
      0 < (Program.mk 0 [.ret .allow] .allow).instructions.length ∧
      ∃ v steps,
        execute (Program.mk 0 [.ret .allow] .allow) ⟨0, 0, [0, 0, 0, 0, 0, 0]⟩ =
            some v ∧
          runN (Program.mk 0 [.ret .allow] .allow).instructions
              ⟨0, 0, [0, 0, 0, 0, 0, 0]⟩ 0 = some (v, steps) ∧
          steps ≤ (Program.mk 0 [.ret .allow] .allow).instructions.length :=
  ⟨by decide, by decide,
    interpreter_terminates (Program.mk 0 [.ret .allow] .allow)
      ⟨0, 0, [0, 0, 0, 0, 0, 0]⟩ (by decide) (by decide)⟩

/-- C1: For every valid input tuple, executing the optimized program
produced by `buildProgram` with optimization enabled yields exactly the
same verdict as executing the unoptimized program it was derived from;
this holds for every program the compiler can produce from any list of
rule sets. -/
theorem optimizer_equivalence (rss : List RuleSet) (arch : Nat)
    (d : Verdict) (inp : Input) (pU pO : Program)
    (hinp : inp.valid = true)
    (hU : buildProgram rss ⟨false, arch, d⟩ = .ok pU)
    (hO : buildProgram rss ⟨true, arch, d⟩ = .ok pO) :
    execute pO inp = execute pU inp := by
  simp only [buildProgram] at hU hO
  cases hc : compile (flattenRuleSets rss) d arch with
  | error e =>
      rw [hc] at hU
      exact absurd hU (by simp)
  | ok q =>
      rw [hc] at hU hO
      simp only [if_true, if_false, Bool.false_eq_true] at hU hO
      have hqU : pU = q := by
        cases hU
        rfl
      have hqO : pO = optimizeProgram q := by
        cases hO
        rfl
      subst hqU
      subst hqO
      rw [execute_eq_runV, execute_eq_runV]
      exact optimizeCode_preserves pU.instructions inp 0

theorem buildProgram_nil_unoptimized :
    buildProgram [] ⟨false, 0, .allow⟩ = .ok ⟨0, [.ret .allow], .allow⟩ := by
  rw [buildProgram]
  simp [flattenRuleSets, compile, compileEntries, MaxInstructions]

theorem buildProgram_nil_optimized :
    buildProgram [] ⟨true, 0, .allow⟩ = .ok ⟨0, [.ret .allow], .allow⟩ := by
  rw [buildProgram]
  simp [flattenRuleSets, compile, compileEntries, MaxInstructions,
    optimizeProgram, optimizeCode_singleton_ret]

/-- Witness for C1 at a concrete rule-set list and input. -/
theorem optimizer_equivalence_witness :
    Input.valid ⟨0, 0, [0, 0, 0, 0, 0, 0]⟩ = true ∧
      buildProgram [] ⟨false, 0, .allow⟩ = .ok ⟨0, [.ret .allow], .allow⟩ ∧
      buildProgram [] ⟨true, 0, .allow⟩ = .ok ⟨0, [.ret .allow], .allow⟩ ∧
      execute ⟨0, [.ret .allow], .allow⟩ ⟨0, 0, [0, 0, 0, 0, 0, 0]⟩ =
        execute ⟨0, [.ret .allow], .allow⟩ ⟨0, 0, [0, 0, 0, 0, 0, 0]⟩ :=
  ⟨by decide, buildProgram_nil_unoptimized, buildProgram_nil_optimized,
    optimizer_equivalence [] 0 .allow ⟨0, 0, [0, 0, 0, 0, 0, 0]⟩
      ⟨0, [.ret .allow], .allow⟩ ⟨0, [.ret .allow], .allow⟩ (by decide)
      buildProgram_nil_unoptimized buildProgram_nil_optimized⟩

/-- C4 counterexample: the optimized form of `deadBranchProgram` retains
an instruction (index 4, the false-branch return) that no input
whatsoever exercises, refuting "every instruction of an optimized program
is exercised by at least one input of a full corpus". -/
theorem optimized_coverage_counterexample :
    ¬ NoDeadCode (optimizeProgram deadBranchProgram) := by
  intro h
  have hlen : 4 < (optimizeProgram deadBranchProgram).instructions.length := by
    have hoinstr : (optimizeProgram deadBranchProgram).instructions =
        deadBranchProgram.instructions := by
      rw [optimizeProgram]
      exact optimizeCode_deadBranch
    rw [hoinstr, deadBranchProgram]
    simp
  simp only [NoDeadCode, Exercised] at h
  obtain ⟨inp, hinp⟩ := h 4 hlen
  rw [coverage_deadBranch] at hinp
  simp at hinp

/-- C4 (amended): every instruction of an optimized program is reachable
— the optimizer's dead-code elimination leaves no statically unreachable
instruction.  (A statically reachable instruction may still be exercised
by no input, as the counterexample shows, so the exercised-by-a-corpus
half of the original claim does not hold universally.) -/
theorem optimized_no_dead_code (code : List Instr) (j : Nat)
    (h : j < (optimizeCode code).length) : Reachable (optimizeCode code) j :=
  optimizeCode_all_reachable code j h

/-- Witness for the amended C4 at a concrete program. -/
theorem optimized_no_dead_code_witness :
    0 < (optimizeCode [Instr.ret .allow]).length ∧
      Reachable (optimizeCode [Instr.ret .allow]) 0 :=
  ⟨by rw [optimizeCode_singleton_ret]; decide,
    optimized_no_dead_code [Instr.ret .allow] 0
      (by rw [optimizeCode_singleton_ret]; decide)⟩

/-- C6: For every valid program `P`, decoding the codec's encoding of `P`
reconstructs `P` exactly, and decoding the single-byte truncation of
`encode(P)` fails with an error rather than returning a program. -/
theorem codec_round_trip (p : Program) (h : p.encodable = true) :
    decodeProgram (encodeProgram p) = .ok p ∧
      decodeProgram ((encodeProgram p).dropLast) = .error .truncated :=
  ⟨decode_encode p h, decode_truncated p h⟩

/-- Witness for C6 at a concrete program. -/
theorem codec_round_trip_witness :
    (Program.mk 0 [.ret .allow] .allow).encodable = true ∧
      decodeProgram (encodeProgram (Program.mk 0 [.ret .allow] .allow)) =
        .ok (Program.mk 0 [.ret .allow] .allow) ∧
      decodeProgram ((encodeProgram
          (Program.mk 0 [.ret .allow] .allow)).dropLast) =
        .error .truncated :=
  ⟨by decide,
    (codec_round_trip (Program.mk 0 [.ret .allow] .allow) (by decide)).1,
    (codec_round_trip (Program.mk 0 [.ret .allow] .allow) (by decide)).2⟩

/-- C8: The precompiled-program registry is populated exactly once: any
first operation populates it with the map built by `registerPrograms`,
every later operation is a read-only lookup that leaves the state
unchanged, and `GetPrecompiled(name)` returns a program (with `ok = true`)
exactly when `name` was registered. -/
theorem registry_populated_once (α : Type) (regs : List (String × α))
    (hnd : (regs.map Prod.fst).Nodup) (ops : List Precompiled.RegOp)
    (hops : ops ≠ []) :
    Precompiled.stateAfter regs ops =
        some (Precompiled.registerPrograms regs) ∧
      (∀ (m : List (String × α)) (op : Precompiled.RegOp),
        Precompiled.stepOp regs (some m) op = some m) ∧
      (∀ (name : String) (p : α),
        (Precompiled.getPrecompiled regs
            (Precompiled.stateAfter regs ops) name).2 = some p ↔
          (name, p) ∈ regs) := by
  refine ⟨Precompiled.stateAfter_nonempty regs ops hops,
    fun m op => Precompiled.stepOp_some regs m op, ?_⟩
  intro name p
  rw [Precompiled.stateAfter_nonempty regs ops hops]
  simp only [Precompiled.getPrecompiled, Precompiled.ensureRegistered,
    Precompiled.registerPrograms]
  exact Precompiled.lookup_eq_some_iff regs hnd name p

/-- Witness for C8 at a concrete registry and operation sequence. -/
theorem registry_populated_once_witness :
    ((([("a", 1)] : List (String × Nat)).map Prod.fst).Nodup ∧
      ([Precompiled.RegOp.list] : List Precompiled.RegOp) ≠ []) ∧
      Precompiled.stateAfter [("a", 1)] [Precompiled.RegOp.list] =
        some (Precompiled.registerPrograms [("a", 1)]) :=
  ⟨⟨by decide, List.cons_ne_nil _ _⟩,
    (registry_populated_once Nat [("a", 1)] (by decide)
      [Precompiled.RegOp.list] (List.cons_ne_nil _ _)).1⟩

/-- C10: `ListPrecompiled` returns the name of every registered program
exactly once, sorted ascending (the registry is populated first when
needed). -/
theorem list_precompiled_sorted (α : Type) (regs : List (String × α))
    (hnd : (regs.map Prod.fst).Nodup) (ops : List Precompiled.RegOp) :
    ((Precompiled.listPrecompiled regs
        (Precompiled.stateAfter regs ops)).2).Perm (regs.map Prod.fst) ∧
      List.Sorted (· ≤ ·)
        (Precompiled.listPrecompiled regs
          (Precompiled.stateAfter regs ops)).2 ∧
      ((Precompiled.listPrecompiled regs
        (Precompiled.stateAfter regs ops)).2).Nodup := by
  have hens : Precompiled.ensureRegistered regs
      (Precompiled.stateAfter regs ops) = regs := by
    cases ops with
    | nil => rfl
    | cons op ops' =>
        rw [Precompiled.stateAfter_nonempty regs _ (by simp)]
        rfl
  have hout : (Precompiled.listPrecompiled regs
      (Precompiled.stateAfter regs ops)).2 =
      (regs.map Prod.fst).insertionSort (· ≤ ·) := by
    simp only [Precompiled.listPrecompiled, hens]
  rw [hout]
  exact ⟨List.perm_insertionSort _ _, List.sorted_insertionSort _ _,
    ((List.perm_insertionSort (α := String) (· ≤ ·)
      (regs.map Prod.fst)).symm.nodup hnd)⟩

/-- Witness for C10 at a concrete registry. -/
theorem list_precompiled_sorted_witness :
    ((([("a", 1)] : List (String × Nat)).map Prod.fst).Nodup) ∧
      ((Precompiled.listPrecompiled [("a", 1)]
        (Precompiled.stateAfter [("a", 1)] [])).2).Perm ["a"] :=
  ⟨by decide,
    by
      have h := (list_precompiled_sorted Nat [("a", 1)] (by decide) []).1
      simpa using h⟩

end SeccompCore
